import Mathlib

/-!
# Verification of the PDF-splitting app (`src/APP.py`)

A shallow embedding of the text-processing core of `APP.py`:
`sanitize_filename`, `clean_title_prefixes`, `cut_before_genero`, the two
boundary-to-range builders, the per-section field extractors
(`find_prof_name_in_section`, `find_laa_descarga_in_section`),
`is_negative_number_string`, the export loop of `export_zip_and_excel`
(name-collision table, negative-value rejection), and the summary sheet of
`build_excel_bytes`.

Pages of the PDF are modelled as their extracted text, pre-split into lines
(`List (List String)`): the actual text extraction (`pdfplumber`) and the
page-copying (`pypdf`) are external libraries, out of scope; page content
copied into a new PDF is modelled as the list of copied page indices.

Python regular-expression character classes (`\w`, `\s`, `\d`) are modelled
on the Basic Latin + Latin-1/Latin-Extended repertoire the app works with
(Spanish names and numerals); Python `str` slicing and indexing are by code
point, matching `List Char`.
-/

namespace App

/-- Python regex `\s` / `str.isspace()` on the relevant repertoire:
ASCII whitespace plus the Unicode whitespace code points. -/
def pyIsSpace (c : Char) : Bool :=
  c = ' ' || c = '\t' || c = '\n' || c = '\r' ||
  c.val = 11 || c.val = 12 ||
  c.val = 0x1c || c.val = 0x1d || c.val = 0x1e || c.val = 0x1f ||
  c.val = 0x85 || c.val = 0xA0 || c.val = 0x1680 ||
  (0x2000 ≤ c.val && c.val ≤ 0x200A) ||
  c.val = 0x2028 || c.val = 0x2029 || c.val = 0x202F ||
  c.val = 0x205F || c.val = 0x3000

/-- Python regex `\w` (with `re.UNICODE`) on the Basic Latin and
Latin-1-Supplement/Latin-Extended repertoire: ASCII alphanumerics,
underscore, and the accented Latin letters (excluding `×` U+00D7 and
`÷` U+00F7, which are not word characters). -/
def pyIsWord (c : Char) : Bool :=
  c.isAlphanum || c = '_' ||
  (0xC0 ≤ c.val && c.val ≤ 0x24F && c.val ≠ 0xD7 && c.val ≠ 0xF7)

/-- The character class `[\w\s\-_.()]` kept by `sanitize_filename`. -/
def pyAllowed (c : Char) : Bool :=
  pyIsWord c || pyIsSpace c || c = '-' || c = '_' || c = '.' || c = '(' || c = ')'

/-- Python `str.strip()` on a list of characters: drop leading and trailing
whitespace. -/
def stripChars (l : List Char) : List Char :=
  ((l.dropWhile pyIsSpace).reverse.dropWhile pyIsSpace).reverse

/-- `re.sub(r"\s+", " ", ·)`: replace every maximal run of whitespace by a
single ASCII space.  The boolean argument records whether the previous
character was part of a whitespace run. -/
def collapseWSAux : Bool → List Char → List Char
  | _, [] => []
  | prev, c :: rest =>
    if pyIsSpace c then
      if prev then collapseWSAux true rest else ' ' :: collapseWSAux true rest
    else c :: collapseWSAux false rest

def collapseWS (l : List Char) : List Char := collapseWSAux false l

/-- `sanitize_filename` (APP.py lines 13-17) on a character list:
remove every character outside `[\w\s\-_.()]`, then `strip()`, then
collapse whitespace runs to one space, then truncate to `maxLen`
code points, substituting `"Plan"` when the result is empty. -/
def sanitizeList (l : List Char) (maxLen : Nat) : List Char :=
  let kept := (l.filter pyAllowed)
  let stripped := stripChars kept
  let collapsed := collapseWS stripped
  let truncated := collapsed.take maxLen
  if truncated.isEmpty then ['P', 'l', 'a', 'n'] else truncated

/-- `sanitize_filename(name, max_len=100)` from APP.py. -/
def sanitize_filename (s : String) (maxLen : Nat := 100) : String :=
  String.mk (sanitizeList s.data maxLen)

example : sanitize_filename "  Ana//Ruiz?? " = "AnaRuiz" := by decide
example : sanitize_filename "Juan  Pérez*" = "Juan Pérez" := by decide
example : sanitize_filename "" = "Plan" := by decide
example : sanitize_filename "A_(2)" = "A_(2)" := by decide

/-! ## Decimal rendering of counters and order indices

Python's `f"{base}_({count})"` and `f"Plan_{idx:03d}"` render a natural
number in decimal.  `natToDec` is that decimal rendering. -/

def natToDecAux : Nat → Nat → List Char
  | 0, _ => []
  | fuel + 1, n =>
    if n < 10 then [Nat.digitChar n]
    else natToDecAux fuel (n / 10) ++ [Nat.digitChar (n % 10)]

def natToDec (n : Nat) : List Char := natToDecAux (n + 1) n

theorem natToDecAux_fuel_irrel :
    ∀ f₁ : Nat, ∀ n f₂ : Nat, n < f₁ → n < f₂ → natToDecAux f₁ n = natToDecAux f₂ n := by
  intro f₁
  induction f₁ with
  | zero => intro n f₂ h; omega
  | succ f₁ ih =>
    intro n f₂ h₁ h₂
    obtain ⟨f₂, rfl⟩ : ∃ m, f₂ = m + 1 := ⟨f₂ - 1, by omega⟩
    simp only [natToDecAux]
    by_cases h : n < 10
    · simp [h]
    · have hd : n / 10 < n := Nat.div_lt_self (by omega) (by decide)
      simp only [h, if_neg, if_false]
      rw [ih (n / 10) f₂ (by omega) (by omega)]

theorem natToDec_eq (n : Nat) :
    natToDec n = if n < 10 then [Nat.digitChar n]
      else natToDec (n / 10) ++ [Nat.digitChar (n % 10)] := by
  show natToDecAux (n + 1) n = _
  simp only [natToDecAux]
  by_cases h : n < 10
  · simp [h]
  · have hd : n / 10 < n := Nat.div_lt_self (by omega) (by decide)
    simp only [h, if_false]
    rw [natToDecAux_fuel_irrel n (n / 10) (n / 10 + 1) (by omega) (by omega)]
    rfl

theorem digitChar_toNat (m : Nat) (h : m < 10) : (Nat.digitChar m).toNat = 48 + m := by
  interval_cases m <;> decide

theorem digitChar_isDigit (m : Nat) (h : m < 10) : (Nat.digitChar m).isDigit = true := by
  interval_cases m <;> decide

/-- Decoding a decimal digit list back to a number (used only to prove
`natToDec` injective). -/
def decFromChars (l : List Char) : Nat :=
  l.foldl (fun a c => a * 10 + (c.toNat - 48)) 0

theorem decFromChars_append_digit (l : List Char) (c : Char) :
    decFromChars (l ++ [c]) = decFromChars l * 10 + (c.toNat - 48) := by
  simp [decFromChars, List.foldl_append]

theorem decFromChars_natToDec (n : Nat) : decFromChars (natToDec n) = n := by
  induction n using Nat.strong_induction_on with
  | _ n ih =>
    rw [natToDec_eq]
    by_cases h : n < 10
    · simp only [h, if_pos]
      simp [decFromChars, digitChar_toNat n h]
    · simp only [h, if_false]
      rw [decFromChars_append_digit]
      have hrec : decFromChars (natToDec (n / 10)) = n / 10 :=
        ih (n / 10) (Nat.div_lt_self (by omega) (by decide))
      have hm : n % 10 < 10 := Nat.mod_lt _ (by decide)
      rw [hrec, digitChar_toNat _ hm]
      omega

theorem natToDec_injective : Function.Injective natToDec := by
  intro a b h
  have := decFromChars_natToDec a
  rw [h, decFromChars_natToDec] at this
  omega

theorem natToDec_ne_nil (n : Nat) : natToDec n ≠ [] := by
  rw [natToDec_eq]
  by_cases h : n < 10 <;> simp [h]

theorem natToDec_all_digit (n : Nat) : ∀ c ∈ natToDec n, c.isDigit = true := by
  induction n using Nat.strong_induction_on with
  | _ n ih =>
    rw [natToDec_eq]
    by_cases h : n < 10
    · simp only [h, if_pos, List.mem_singleton]
      rintro c rfl
      exact digitChar_isDigit n h
    · simp only [h, if_false, List.mem_append, List.mem_singleton]
      rintro c (hc | rfl)
      · exact ih (n / 10) (Nat.div_lt_self (by omega) (by decide)) c hc
      · exact digitChar_isDigit _ (Nat.mod_lt _ (by decide))

/-- `f"Plan_{idx:03d}"`: the ordinal placeholder name, zero-padded to at
least three digits. -/
def planPlaceholder (idx : Nat) : String :=
  let d := natToDec idx
  String.mk (['P', 'l', 'a', 'n', '_'] ++ List.replicate (3 - d.length) '0' ++ d)

example : planPlaceholder 1 = "Plan_001" := by decide
example : planPlaceholder 12 = "Plan_012" := by decide
example : planPlaceholder 1234 = "Plan_1234" := by decide

/-! ## Boundary-to-range conversion (APP.py lines 97-111)

A range is `(start, stop, label)`, page indices 0-based, `stop` exclusive,
mirroring the Python tuples. -/

/-- `build_ranges_from_starts` (APP.py lines 97-102): the end of boundary
`k` is the start of boundary `k+1`, or `total_pages` for the last one. -/
def build_ranges_from_starts (total : Nat) :
    List (Nat × Option String) → List (Nat × Nat × Option String)
  | [] => []
  | (p, lab) :: rest =>
    (p, (match rest with | [] => total | (q, _) :: _ => q), lab) ::
      build_ranges_from_starts total rest

/-- The loop body of `build_ranges_every_n` (APP.py lines 104-111):
`while i < total: end = min(i+n, total); append (i, end, None); i = end`.
`fuel` bounds the number of iterations; with `n ≥ 1`, `total` iterations
always suffice (the source loop does not terminate for `n = 0`, a value
the UI slider cannot produce). -/
def buildEveryNGo (total n : Nat) : Nat → Nat → List (Nat × Nat × Option String)
  | _, 0 => []
  | i, fuel + 1 =>
    if i < total then
      (i, min (i + n) total, none) :: buildEveryNGo total n (min (i + n) total) fuel
    else []

/-- `build_ranges_every_n` (APP.py lines 104-111). -/
def build_ranges_every_n (total n : Nat) : List (Nat × Nat × Option String) :=
  buildEveryNGo total n 0 total

example : build_ranges_every_n 7 3 = [(0, 3, none), (3, 6, none), (6, 7, none)] := by decide
example : build_ranges_every_n 6 3 = [(0, 3, none), (3, 6, none)] := by decide
example : build_ranges_from_starts 9 [(0, none), (4, some "x"), (6, none)] =
    [(0, 4, none), (4, 6, some "x"), (6, 9, none)] := by decide

/-! ## `cut_before_genero` (APP.py lines 38-42)

`re.split(r"\bG[EÉ]NERO\b", s, flags=re.IGNORECASE, maxsplit=1)` and keep
the stripped part before the first match.  `\b` requires a non-word
character (or the string edge) on each side; `[EÉ]` under `IGNORECASE`
matches `E`, `e`, `É`, `é`. -/

/-- Does `G[EÉ]NERO\b` (case-insensitively) start here, `prev` being the
character just before this position (`none` at the string start)? -/
def generoHere (prev : Option Char) (l : List Char) : Bool :=
  (match prev with | none => true | some p => !pyIsWord p) &&
  (match l with
   | g :: e :: n :: e₂ :: r :: o :: rest =>
     (g = 'G' || g = 'g') &&
     (e = 'E' || e = 'e' || e = 'É' || e = 'é') &&
     (n = 'N' || n = 'n') && (e₂ = 'E' || e₂ = 'e') &&
     (r = 'R' || r = 'r') && (o = 'O' || o = 'o') &&
     (match rest with | [] => true | c :: _ => !pyIsWord c)
   | _ => false)

/-- The part of `l` before the first `\bG[EÉ]NERO\b` match (or all of `l`). -/
def cutGeneroAux : Option Char → List Char → List Char
  | _, [] => []
  | prev, c :: rest =>
    if generoHere prev (c :: rest) then []
    else c :: cutGeneroAux (some c) rest

/-- `cut_before_genero` from APP.py lines 38-42. -/
def cut_before_genero (s : String) : String :=
  if s = "" then s
  else String.mk (stripChars (cutGeneroAux none s.data))

example : cut_before_genero "Juan Pérez GÉNERO: M" = "Juan Pérez" := by decide
example : cut_before_genero "Juan Pérez genero: M" = "Juan Pérez" := by decide
example : cut_before_genero "GÉNERO: M" = "" := by decide
example : cut_before_genero "DEGÉNERO x" = "DEGÉNERO x" := by decide

/-! ## `clean_title_prefixes` (APP.py lines 19-26)

`re.sub(r"^\s*(?:dr\.?|dra\.?|lic\.?|ing\.?|msc\.?|m\.?sc\.?|mag\.?|maestr[eo]|master|mtr\.?|ph\.?d\.?|prof\.?)\s+", "", name, flags=re.IGNORECASE)`
then collapse whitespace and strip.  Each alternative is a token list; the
matcher implements the regex's backtracking over the optional dots, with
the mandatory trailing `\s+`. -/

inductive Tok where
  | lit (c : Char)
  | optDot
  | oneOf (cs : List Char)
deriving Repr

/-- ASCII-lowercase a character (the honorific literals are ASCII). -/
def lowerCh (c : Char) : Char := c.toLower

/-- Match a token list case-insensitively at the head of `l`, then require
`\s+` (at least one whitespace character, consumed greedily); return the
remainder after the whitespace run.  `Tok.optDot` tries to consume a `.`
first and falls back to consuming nothing, as the greedy `\.?` does. -/
def matchToksWS : List Tok → List Char → Option (List Char)
  | [], l =>
    match l with
    | c :: r => if pyIsSpace c then some (r.dropWhile pyIsSpace) else none
    | [] => none
  | Tok.lit ch :: ts, l =>
    match l with
    | c :: r => if lowerCh c = ch then matchToksWS ts r else none
    | [] => none
  | Tok.optDot :: ts, l =>
    (match l with
     | '.' :: r => matchToksWS ts r
     | _ => none).orElse (fun _ => matchToksWS ts l)
  | Tok.oneOf cs :: ts, l =>
    match l with
    | c :: r => if cs.contains (lowerCh c) then matchToksWS ts r else none
    | [] => none

private def lits (s : String) : List Tok := s.data.map Tok.lit

/-- The alternatives of the honorific prefix regex, in the pattern's order:
`dr\.?|dra\.?|lic\.?|ing\.?|msc\.?|m\.?sc\.?|mag\.?|maestr[eo]|master|mtr\.?|ph\.?d\.?|prof\.?`. -/
def honorificAlts : List (List Tok) :=
  [ lits "dr" ++ [Tok.optDot],
    lits "dra" ++ [Tok.optDot],
    lits "lic" ++ [Tok.optDot],
    lits "ing" ++ [Tok.optDot],
    lits "msc" ++ [Tok.optDot],
    lits "m" ++ [Tok.optDot] ++ lits "sc" ++ [Tok.optDot],
    lits "mag" ++ [Tok.optDot],
    lits "maestr" ++ [Tok.oneOf ['e', 'o']],
    lits "master",
    lits "mtr" ++ [Tok.optDot],
    lits "p" ++ lits "h" ++ [Tok.optDot] ++ lits "d" ++ [Tok.optDot],
    lits "prof" ++ [Tok.optDot] ]

/-- `clean_title_prefixes` from APP.py lines 19-26: strip one leading
honorific (first alternative that matches wins, as in regex alternation),
then collapse whitespace and strip. -/
def clean_title_prefixes (s : String) : String :=
  if s = "" then s
  else
    let l := s.data
    let afterWS := l.dropWhile pyIsSpace
    let body := match honorificAlts.findSome? (fun ts => matchToksWS ts afterWS) with
      | some rest => rest
      | none => l
    String.mk (stripChars (collapseWS body))

example : clean_title_prefixes "Dra. Ana Ruiz" = "Ana Ruiz" := by decide
example : clean_title_prefixes "Juan Pérez" = "Juan Pérez" := by decide
example : clean_title_prefixes "m.sc. Juan" = "Juan" := by decide
example : clean_title_prefixes "Maestro  Luis " = "Luis" := by decide
example : clean_title_prefixes "Drake Ramoray" = "Drake Ramoray" := by decide

/-! ## The labelled-line regexes (APP.py lines 122-124 and 149)

`^\s*NOMBRE\s+DEL\s+PROFESOR\(A\)\s*[:=\-—–]\s*(.+)$` and
`^\s*LAA/DESCARGA\s*[:=\-—–]\s*(.+)$`, both `re.IGNORECASE`.
`$` matches at the end of the string or just before one trailing newline;
`.` does not match a newline. -/

/-- The accepted separators `:  =  -  —  –`. -/
def sepChars : List Char := [':', '=', '-', '—', '–']

/-- Match a literal case-insensitively at the head of `l` (ASCII letters;
other characters literally), returning the remainder. -/
def dropLitCI : List Char → List Char → Option (List Char)
  | [], l => some l
  | p :: ps, c :: r => if lowerCh c = lowerCh p then dropLitCI ps r else none
  | _ :: _, [] => none

/-- Match `\s+` (at least one whitespace), returning the remainder after
the whole run. -/
def dropWS1 : List Char → Option (List Char)
  | c :: r => if pyIsSpace c then some (r.dropWhile pyIsSpace) else none
  | [] => none

/-- The `\s*(.+)$` tail after the separator: applied to `rest₀`, the match
succeeds iff after an all-whitespace prefix there is a nonempty newline-free
remainder (a lone trailing newline is allowed, `$` sitting before it); the
recorded value is `group(1).strip()`.  Backtracking into the `\s*` can only
produce all-whitespace groups, which strip to empty and are rejected by the
caller's `m.group(1).strip()` test, so they are `none` here as well. -/
def groupTailValue (rest₀ : List Char) : Option (List Char) :=
  let core := match rest₀.getLast? with
    | some c => if c = '\n' then rest₀.dropLast else rest₀
    | none => rest₀
  let v := core.dropWhile pyIsSpace
  if v.isEmpty || v.contains '\n' then none
  else some (stripChars v)

/-- One line against the `NOMBRE DEL PROFESOR(A)` regex: `some v` with
`v = m.group(1).strip()` when the line matches with a non-blank value. -/
def profLineValue (line : String) : Option String :=
  let l := line.data.dropWhile pyIsSpace
  (dropLitCI "NOMBRE".data l).bind fun l =>
  (dropWS1 l).bind fun l =>
  (dropLitCI "DEL".data l).bind fun l =>
  (dropWS1 l).bind fun l =>
  (dropLitCI "PROFESOR(A)".data l).bind fun l =>
  match l.dropWhile pyIsSpace with
  | c :: rest => if sepChars.contains c then (groupTailValue rest).map String.mk else none
  | [] => none

/-- One line against the `LAA/DESCARGA` regex. -/
def laaLineValue (line : String) : Option String :=
  let l := line.data.dropWhile pyIsSpace
  (dropLitCI "LAA/DESCARGA".data l).bind fun l =>
  match l.dropWhile pyIsSpace with
  | c :: rest => if sepChars.contains c then (groupTailValue rest).map String.mk else none
  | [] => none

example : profLineValue "NOMBRE DEL PROFESOR(A): Juan Pérez GÉNERO: M" =
    some "Juan Pérez GÉNERO: M" := by decide
example : profLineValue "  nombre del profesor(a) — Ana " = some "Ana" := by decide
example : profLineValue "NOMBRE DEL PROFESOR(A):   " = none := by decide
example : profLineValue "NOMBRE DEL PROFESOR: Juan" = none := by decide
example : laaLineValue "LAA/DESCARGA: - 1,234" = some "- 1,234" := by decide

/-- The scan window of a section (APP.py lines 127-131 / 151-155): the
first `linesPerPage` lines of pages `startP` to
`min endP (startP + scanPages)`, in order.  Pages are the document's
per-page extracted text, pre-split into lines. -/
def scanWindow (pages : List (List String)) (startP endP scanPages linesPerPage : Nat) :
    List String :=
  let stop := min endP (startP + scanPages)
  ((pages.drop startP).take (stop - startP)).flatMap (fun pg => pg.take linesPerPage)

/-- `find_prof_name_in_section` (APP.py lines 114-139): first matching line
with a non-blank value wins; the value is cut before `GÉNERO`, stripped of
title prefixes, sanitized, and returned (`None` if that leaves nothing —
unreachable, since the sanitizer never returns an empty string). -/
def find_prof_name_in_section (pages : List (List String))
    (startP endP : Nat) (scanPages : Nat := 2) (linesPerPage : Nat := 60) :
    Option String :=
  match (scanWindow pages startP endP scanPages linesPerPage).findSome? profLineValue with
  | some v =>
    let name := sanitize_filename (clean_title_prefixes (cut_before_genero v))
    if name = "" then none else some name
  | none => none

/-- `find_laa_descarga_in_section` (APP.py lines 142-159): the raw stripped
value after the separator of the first matching line. -/
def find_laa_descarga_in_section (pages : List (List String))
    (startP endP : Nat) (scanPages : Nat := 2) (linesPerPage : Nat := 60) :
    Option String :=
  (scanWindow pages startP endP scanPages linesPerPage).findSome? laaLineValue

example : find_prof_name_in_section
    [["NOMBRE DEL PROFESOR(A): Juan Pérez GÉNERO: M"]] 0 1 = some "Juan Pérez" := by decide

/-! ## `is_negative_number_string` (APP.py lines 161-171) -/

/-- The core pattern `-?\d+(\.\d+)?` anchored at both ends. -/
def numCore (l : List Char) : Bool :=
  let l₁ := match l with | '-' :: r => r | _ => l
  let ds := l₁.takeWhile Char.isDigit
  let rest := l₁.dropWhile Char.isDigit
  !ds.isEmpty &&
    (match rest with
     | [] => true
     | '.' :: r₂ => !r₂.isEmpty && r₂.all Char.isDigit
     | _ => false)

/-- `re.match(r"^-?\d+(\.\d+)?$", ·)`: `$` also matches just before one
trailing newline. -/
def numPattern (l : List Char) : Bool :=
  numCore l || (match l.getLast? with
                | some '\n' => numCore l.dropLast
                | _ => false)

/-- `is_negative_number_string` from APP.py lines 161-171: strip thousands
separators (space, comma, non-breaking space), then require the numeric
pattern and `s_compact.startswith("-")`, i.e. first character `-`. -/
def is_negative_number_string (s : String) : Bool :=
  if s = "" then false
  else
    let compact := s.data.filter (fun c => !(c = ' ' || c = ',' || c.val = 0xA0))
    numPattern compact && (compact.head? == some '-')

example : is_negative_number_string "- 1,234" = true := by decide
example : is_negative_number_string "1234" = false := by decide
example : is_negative_number_string "abc" = false := by decide
example : is_negative_number_string "-12.5" = true := by decide
example : is_negative_number_string "-12.5.3" = false := by decide
example : is_negative_number_string "-" = false := by decide

/-! ## The export loop `export_zip_and_excel` (APP.py lines 218-299)

One iteration per range: resolve the display name (detected field, else
sanitized provisional label, else ordinal placeholder), read LAA/DESCARGA,
reject negatives into `errores_rows`, otherwise assign a collision-free
file name via `used_names` and emit a ZIP entry plus a `detalles_rows` row.
A ZIP entry's content is modelled as the list of copied page indices. -/

structure DetRow where
  orden : Nat
  archivo : String
  nombre_detectado : String
  pagina_inicio_1based : Nat
  pagina_fin_1based : Nat
  paginas_en_pdf : Nat
deriving Repr, DecidableEq

structure ErrRow where
  orden : Nat
  nombre_detectado : String
  valor_laa_descarga : String
  motivo : String
  pagina_inicio_1based : Nat
  pagina_fin_1based : Nat
  paginas_en_pdf : Nat
deriving Repr, DecidableEq

structure ZipEntry where
  name : String
  pages : List Nat
deriving Repr, DecidableEq

/-- Python truthiness of an optional string: `None` and `""` are falsy. -/
def pyTruthyOpt : Option String → Bool
  | none => false
  | some s => !(s == "")

/-- Steps 1 of the loop (APP.py lines 240-248): the final display name.
`detected = find(...)`; `if not detected and label_opt: detected =
sanitize_filename(label_opt)`; `if not detected: detected = f"Plan_{idx:03d}"`. -/
def resolveDetected (found lab : Option String) (idx : Nat) : String :=
  let d₁ : Option String :=
    if !pyTruthyOpt found then
      match lab with
      | some l => if l == "" then found else some (sanitize_filename l)
      | none => found
    else found
  match d₁ with
  | some s => if s == "" then planPlaceholder idx else s
  | none => planPlaceholder idx

/-- The `used_names` update and file-name choice (APP.py lines 270-276):
on a collision the counter for the base is bumped and the name gets the
`_(count)` suffix; otherwise the base is recorded with count 1 and used
as-is.  Suffixed names are not themselves recorded. -/
def setUsed : List (String × Nat) → String → Nat → List (String × Nat)
  | [], k, v => [(k, v)]
  | (a, c) :: rest, k, v => if a = k then (k, v) :: rest else (a, c) :: setUsed rest k v

def pickName (used : List (String × Nat)) (base : String) :
    List (String × Nat) × String :=
  match List.lookup base used with
  | some c => (setUsed used base (c + 1), base ++ "_(" ++ String.mk (natToDec (c + 1)) ++ ")")
  | none => (setUsed used base 1, base)

/-- The per-range loop of `export_zip_and_excel`, `idx` the 1-based
enumeration counter and `used` the `used_names` table. -/
def exportGo (pages : List (List String)) (pre : String) (scanPages linesPerPage : Nat) :
    List (Nat × Nat × Option String) → Nat → List (String × Nat) →
    List ZipEntry × List DetRow × List ErrRow
  | [], _, _ => ([], [], [])
  | (start, stop, lab) :: rest, idx, used =>
    let detected := resolveDetected
      (find_prof_name_in_section pages start stop scanPages linesPerPage) lab idx
    match find_laa_descarga_in_section pages start stop scanPages linesPerPage with
    | some v =>
      if is_negative_number_string v then
        let out := exportGo pages pre scanPages linesPerPage rest (idx + 1) used
        (out.1,
         out.2.1,
         { orden := idx, nombre_detectado := detected, valor_laa_descarga := v,
           motivo := "LAA/DESCARGA negativo",
           pagina_inicio_1based := start + 1, pagina_fin_1based := stop,
           paginas_en_pdf := stop - start } :: out.2.2)
      else
        let base := if pre = "" then sanitize_filename detected
                    else sanitize_filename (pre ++ detected)
        let nu := pickName used base
        let fname := nu.2 ++ ".pdf"
        let out := exportGo pages pre scanPages linesPerPage rest (idx + 1) nu.1
        ({ name := fname, pages := List.range' start (stop - start) } :: out.1,
         { orden := idx, archivo := fname, nombre_detectado := detected,
           pagina_inicio_1based := start + 1, pagina_fin_1based := stop,
           paginas_en_pdf := stop - start } :: out.2.1,
         out.2.2)
    | none =>
        let base := if pre = "" then sanitize_filename detected
                    else sanitize_filename (pre ++ detected)
        let nu := pickName used base
        let fname := nu.2 ++ ".pdf"
        let out := exportGo pages pre scanPages linesPerPage rest (idx + 1) nu.1
        ({ name := fname, pages := List.range' start (stop - start) } :: out.1,
         { orden := idx, archivo := fname, nombre_detectado := detected,
           pagina_inicio_1based := start + 1, pagina_fin_1based := stop,
           paginas_en_pdf := stop - start } :: out.2.1,
         out.2.2)

/-- `export_zip_and_excel` (APP.py lines 218-299), modulo the external PDF
and workbook encodings: the ZIP entries, `detalles_rows` and
`errores_rows`. -/
def export_zip_and_excel (pages : List (List String))
    (ranges : List (Nat × Nat × Option String)) (pre : String)
    (scanPages linesPerPage : Nat) :
    List ZipEntry × List DetRow × List ErrRow :=
  exportGo pages pre scanPages linesPerPage ranges 1 []

example :
    export_zip_and_excel
      [["NOMBRE DEL PROFESOR(A): Ana Ruiz"], ["nombre del profesor(a) = Ana, Ruiz?"],
       ["LAA/DESCARGA: -3"]]
      [(0, 1, none), (1, 2, none), (2, 3, some "x")] "" 2 60 =
    ([⟨"Ana Ruiz.pdf", [0]⟩, ⟨"Ana Ruiz_(2).pdf", [1]⟩],
     [⟨1, "Ana Ruiz.pdf", "Ana Ruiz", 1, 1, 1⟩, ⟨2, "Ana Ruiz_(2).pdf", "Ana Ruiz", 2, 2, 1⟩],
     [⟨3, "x", "-3", "LAA/DESCARGA negativo", 3, 3, 1⟩]) := by decide

/-! ## The summary sheet of `build_excel_bytes` (APP.py lines 191-198)

`counts` is a Python dict keyed by `nombre_detectado` (insertion-ordered),
then `sorted(counts.items(), key=lambda x: (-x[1], x[0]))`. -/

/-- `counts[key] = counts.get(key, 0) + 1` on an insertion-ordered
association list. -/
def bumpAssoc : List (String × Nat) → String → List (String × Nat)
  | [], k => [(k, 1)]
  | (a, c) :: rest, k => if a = k then (a, c + 1) :: rest else (a, c) :: bumpAssoc rest k

def countsOf (names : List String) : List (String × Nat) :=
  names.foldl bumpAssoc []

/-- Python's string comparison: lexicographic on code points. -/
def strLeB : List Char → List Char → Bool
  | [], _ => true
  | _ :: _, [] => false
  | x :: xs, y :: ys =>
    if x.toNat < y.toNat then true
    else if y.toNat < x.toNat then false
    else strLeB xs ys

theorem strLeB_total : ∀ a b, strLeB a b = true ∨ strLeB b a = true := by
  intro a
  induction a with
  | nil => intro b; exact Or.inl rfl
  | cons x xs ih =>
    intro b
    cases b with
    | nil => exact Or.inr rfl
    | cons y ys =>
      by_cases h₁ : x.toNat < y.toNat
      · exact Or.inl (by simp [strLeB, h₁])
      · by_cases h₂ : y.toNat < x.toNat
        · exact Or.inr (by simp [strLeB, h₂])
        · rcases ih ys with h | h
          · exact Or.inl (by simp [strLeB, h₁, h₂, h])
          · exact Or.inr (by simp [strLeB, h₁, h₂, h])

theorem strLeB_trans : ∀ a b c, strLeB a b = true → strLeB b c = true → strLeB a c = true := by
  intro a
  induction a with
  | nil => intro b c _ _; rfl
  | cons x xs ih =>
    intro b c hab hbc
    cases b with
    | nil => simp [strLeB] at hab
    | cons y ys =>
      cases c with
      | nil => simp [strLeB] at hbc
      | cons z zs =>
        simp only [strLeB] at hab hbc ⊢
        by_cases hxy : x.toNat < y.toNat
        · by_cases hyz : y.toNat < z.toNat
          · have : x.toNat < z.toNat := by omega
            simp [this]
          · by_cases hzy : z.toNat < y.toNat
            · simp [hyz, hzy] at hbc
            · have : x.toNat < z.toNat := by omega
              simp [this]
        · by_cases hyx : y.toNat < x.toNat
          · simp [hxy, hyx] at hab
          · by_cases hyz : y.toNat < z.toNat
            · have : x.toNat < z.toNat := by omega
              simp [this]
            · by_cases hzy : z.toNat < y.toNat
              · simp [hyz, hzy] at hbc
              · have hxz : ¬ x.toNat < z.toNat := by omega
                have hzx : ¬ z.toNat < x.toNat := by omega
                simp only [hxz, if_false, hzx]
                exact ih ys zs (by simpa [hxy, hyx] using hab) (by simpa [hyz, hzy] using hbc)

/-- The sort key `(-count, name)` as an order relation: larger counts
first, ties by name ascending (code-point order, as Python compares
strings). -/
def sumRel (a b : String × Nat) : Prop :=
  b.2 < a.2 ∨ (a.2 = b.2 ∧ strLeB a.1.data b.1.data = true)

instance : DecidableRel sumRel := fun a b => by
  unfold sumRel; infer_instance

instance : IsTotal (String × Nat) sumRel :=
  ⟨by
    intro a b
    rcases Nat.lt_trichotomy a.2 b.2 with h | h | h
    · exact Or.inr (Or.inl h)
    · rcases strLeB_total a.1.data b.1.data with h₁ | h₁
      · exact Or.inl (Or.inr ⟨h, h₁⟩)
      · exact Or.inr (Or.inr ⟨h.symm, h₁⟩)
    · exact Or.inl (Or.inl h)⟩

instance : IsTrans (String × Nat) sumRel :=
  ⟨by
    rintro a b c (h₁ | ⟨h₁, h₁'⟩) (h₂ | ⟨h₂, h₂'⟩)
    · exact Or.inl (h₂.trans h₁)
    · exact Or.inl (h₂ ▸ h₁)
    · exact Or.inl (h₁ ▸ h₂)
    · exact Or.inr ⟨h₁.trans h₂, strLeB_trans _ _ _ h₁' h₂'⟩⟩

/-- The rows of the `resumen` sheet (APP.py lines 191-198): distinct
detected names with their multiplicities, sorted by descending count then
ascending name.  (`r.get("nombre_detectado") or ""` is the identity here:
the rows always carry a string, and `""` maps to `""`.) -/
def summary_rows (detalles : List DetRow) : List (String × Nat) :=
  List.insertionSort sumRel (countsOf (detalles.map (fun r => r.nombre_detectado)))

example :
    summary_rows
      [⟨1, "a.pdf", "B", 1, 1, 1⟩, ⟨2, "b.pdf", "A", 2, 2, 1⟩,
       ⟨3, "c.pdf", "B", 3, 3, 1⟩, ⟨4, "d.pdf", "C", 4, 4, 1⟩] =
    [("B", 2), ("A", 1), ("C", 1)] := by decide

/-! ## Derived notions used in the claim statements -/

/-- Page `p` lies in range `r` (0-based, end exclusive). -/
def pageMem (p : Nat) (r : Nat × Nat × Option String) : Prop :=
  r.1 ≤ p ∧ p < r.2.1

instance (p : Nat) (r : Nat × Nat × Option String) : Decidable (pageMem p r) :=
  inferInstanceAs (Decidable (r.1 ≤ p ∧ p < r.2.1))

/-- No page lies in two distinct ranges of the list. -/
def rangesNonOverlapping (rs : List (Nat × Nat × Option String)) : Prop :=
  ∀ i j, (hi : i < rs.length) → (hj : j < rs.length) → i ≠ j →
    ∀ p, pageMem p (rs.get ⟨i, hi⟩) → ¬ pageMem p (rs.get ⟨j, hj⟩)

/-- Adjacent ranges meet exactly: the end of range `k` is the start of
range `k+1`. -/
def rangesContiguous (rs : List (Nat × Nat × Option String)) : Prop :=
  List.Chain' (fun a b => a.2.1 = b.1) rs

/-- `f"{base}_({k})"`: a base name with a parenthesized counter. -/
def encName (b : String) (k : Nat) : String :=
  b ++ "_(" ++ String.mk (natToDec k) ++ ")"

/-- The sanitized base file names of the accepted (non-rejected) sections,
in processing order — the values the export loop feeds to `used_names`
(APP.py line 270). -/
def acceptedBasesGo (pages : List (List String)) (pre : String)
    (scanPages linesPerPage : Nat) :
    List (Nat × Nat × Option String) → Nat → List String
  | [], _ => []
  | (start, stop, lab) :: rest, idx =>
    let detected := resolveDetected
      (find_prof_name_in_section pages start stop scanPages linesPerPage) lab idx
    match find_laa_descarga_in_section pages start stop scanPages linesPerPage with
    | some v =>
      if is_negative_number_string v then
        acceptedBasesGo pages pre scanPages linesPerPage rest (idx + 1)
      else
        (if pre = "" then sanitize_filename detected
         else sanitize_filename (pre ++ detected)) ::
          acceptedBasesGo pages pre scanPages linesPerPage rest (idx + 1)
    | none =>
        (if pre = "" then sanitize_filename detected
         else sanitize_filename (pre ++ detected)) ::
          acceptedBasesGo pages pre scanPages linesPerPage rest (idx + 1)

def acceptedBases (pages : List (List String))
    (ranges : List (Nat × Nat × Option String)) (pre : String)
    (scanPages linesPerPage : Nat) : List String :=
  acceptedBasesGo pages pre scanPages linesPerPage ranges 1

/-- The file names assigned to a list of base names by the `used_names`
discipline, starting from table `used` (the naming part of the export
loop, APP.py lines 270-276 and 285). -/
def assignNames (used : List (String × Nat)) : List String → List String
  | [] => []
  | b :: rest =>
    let nu := pickName used b
    (nu.2 ++ ".pdf") :: assignNames nu.1 rest

/-- The last character is not whitespace (vacuously true of the empty
string). -/
def noTrailSpaceB (l : List Char) : Bool :=
  match l.getLast? with
  | none => true
  | some c => !pyIsSpace c

/-- The first character is not whitespace (vacuously true of the empty
string). -/
def noLeadSpaceB : List Char → Bool
  | [] => true
  | c :: _ => !pyIsSpace c

/-- Every whitespace character is a plain ASCII space that is not followed
by another whitespace character — the shape `re.sub(r"\s+", " ", ·)`
leaves behind. -/
def isolatedSpaces : List Char → Bool
  | [] => true
  | c :: rest =>
    (if pyIsSpace c then (c == ' ') && noLeadSpaceB rest else true) && isolatedSpaces rest

/-- Modelled from the spec: "strip thousands-separator characters (spaces,
commas, a non-breaking space), then test that the remainder matches an
optional-fraction integer/decimal pattern AND begins with a minus sign"
(spec §4.5) — the reference against which `is_negative_number_string` is
checked. -/
def specNegativeValue (s : String) : Bool :=
  let compact := s.data.filter (fun c => !(c = ' ' || c = ',' || c.val = 0xA0))
  numPattern compact && (compact.head? == some '-')

/-! # Theorems -/

/-! ## Basic facts about the sanitizer and the extractors -/

theorem sanitizeList_ne_nil (l : List Char) (m : Nat) : sanitizeList l m ≠ [] := by
  simp only [sanitizeList]
  split_ifs with h
  · simp
  · intro hc
    rw [hc] at h
    simp at h

theorem sanitize_filename_length_pos (x : String) (m : Nat) :
    0 < (sanitize_filename x m).length := by
  show 0 < (sanitizeList x.data m).length
  exact List.length_pos.mpr (sanitizeList_ne_nil _ _)

theorem sanitize_filename_ne_empty (x : String) (m : Nat) :
    sanitize_filename x m ≠ "" := by
  intro h
  have : sanitizeList x.data m = [] := congrArg String.data h
  exact sanitizeList_ne_nil _ _ this

theorem find_prof_ne_empty (pages : List (List String)) (s e sp lpp : Nat) (d : String)
    (h : find_prof_name_in_section pages s e sp lpp = some d) : d ≠ "" := by
  intro hd
  subst hd
  unfold find_prof_name_in_section at h
  cases hfs : (scanWindow pages s e sp lpp).findSome? profLineValue with
  | none => rw [hfs] at h; cases h
  | some v =>
    rw [hfs] at h
    simp only at h
    split_ifs at h with hname
    exact hname (Option.some_inj.mp h)

/-- C4: `is_negative_number_string` returns true exactly when, after
removing spaces, commas, and non-breaking spaces, the remainder matches the
optional-fraction numeric pattern and begins with a minus sign; `"- 1,234"`
is negative, `"1234"` and `"abc"` are not, and every input is classified
(no error path). -/
theorem claim_c4_negative_number_test :
    (∀ s : String, is_negative_number_string s = specNegativeValue s) ∧
    is_negative_number_string "- 1,234" = true ∧
    is_negative_number_string "1234" = false ∧
    is_negative_number_string "abc" = false := by
  refine ⟨?_, by decide, by decide, by decide⟩
  intro s
  by_cases h : s = ""
  · subst h; decide
  · simp only [is_negative_number_string, specNegativeValue, h, if_false]

/-- C5: on a scan window holding the line
`"NOMBRE DEL PROFESOR(A): Juan Pérez GÉNERO: M"` the professor-name
extraction returns `"Juan Pérez"`: the value is cut immediately before the
keyword `GÉNERO` (case- and accent-insensitively), honorific prefixes are
stripped first, and the result is sanitized. -/
theorem claim_c5_prof_name_extraction :
    find_prof_name_in_section
      [["NOMBRE DEL PROFESOR(A): Juan Pérez GÉNERO: M"]] 0 1 2 60 = some "Juan Pérez" ∧
    find_prof_name_in_section
      [["NOMBRE DEL PROFESOR(A): Dra. Juan Pérez GÉNERO: M"]] 0 1 2 60 = some "Juan Pérez" ∧
    find_prof_name_in_section
      [["NOMBRE DEL PROFESOR(A): Juan Pérez genero: M"]] 0 1 2 60 = some "Juan Pérez" ∧
    cut_before_genero "Juan Pérez GÉNERO: M" = "Juan Pérez" :=
  ⟨by decide, by decide, by decide, by decide⟩

/-- C7: the final display name of a section is the extracted field value
when the extractor found one, else the sanitized provisional label when one
was captured, else the zero-padded ordinal placeholder `Plan_NNN`; the
fallback chain is total, so a missing field is never an error.  (Captured
labels are `None` or non-empty, hence the `lab ≠ some ""` hypothesis.) -/
theorem claim_c7_display_name_resolution :
    ∀ (pages : List (List String)) (s e sp lpp : Nat) (lab : Option String) (idx : Nat),
      lab ≠ some "" →
      resolveDetected (find_prof_name_in_section pages s e sp lpp) lab idx =
        match find_prof_name_in_section pages s e sp lpp with
        | some d => d
        | none =>
          match lab with
          | some l => sanitize_filename l
          | none => planPlaceholder idx := by
  intro pages s e sp lpp lab idx hlab
  cases hf : find_prof_name_in_section pages s e sp lpp with
  | some d =>
    have hd : (d == "") = false := by
      simp [find_prof_ne_empty pages s e sp lpp d hf]
    simp [resolveDetected, pyTruthyOpt, hd]
  | none =>
    cases lab with
    | none => simp [resolveDetected, pyTruthyOpt]
    | some l =>
      have hl : (l == "") = false := by
        simp
        intro h
        exact hlab (by rw [h])
      have hs : (sanitize_filename l == "") = false := by
        simp [sanitize_filename_ne_empty]
      simp [resolveDetected, pyTruthyOpt, hl, hs]

/-- Witness for C7 at a concrete input. -/
theorem claim_c7_display_name_resolution_witness :
    (some "X" ≠ some "") ∧
    resolveDetected (find_prof_name_in_section [] 0 0 2 60) (some "X") 1 =
      match find_prof_name_in_section [] 0 0 2 60 with
      | some d => d
      | none =>
        match some "X" with
        | some l => sanitize_filename l
        | none => planPlaceholder 1 :=
  ⟨by decide, claim_c7_display_name_resolution [] 0 0 2 60 (some "X") 1 (by decide)⟩

/-- C10: `find_prof_name_in_section` never returns the empty string (its
result, defaulted to `"x"`, always has positive length), and on a section
whose matched value is blanked out by the `GÉNERO` cutoff the sanitizer's
placeholder makes it return `some "Plan"`, not `none`. -/
theorem claim_c10_find_prof_never_empty :
    (∀ (pages : List (List String)) (s e sp lpp : Nat),
      0 < ((find_prof_name_in_section pages s e sp lpp).getD "x").length) ∧
    find_prof_name_in_section [["NOMBRE DEL PROFESOR(A): GÉNERO: M"]] 0 1 2 60 =
      some "Plan" := by
  constructor
  · intro pages s e sp lpp
    unfold find_prof_name_in_section
    cases hfs : (scanWindow pages s e sp lpp).findSome? profLineValue with
    | none => decide
    | some v =>
      simp only []
      split_ifs with hname
      · decide
      · show 0 < (sanitize_filename (clean_title_prefixes (cut_before_genero v))).length
        exact sanitize_filename_length_pos _ _
  · decide

/-! ## The fixed-stride builder: closed form and consequences -/

theorem buildEveryNGo_eq (total n : Nat) (hn : 1 ≤ n) :
    ∀ fuel i, total - i ≤ fuel →
      buildEveryNGo total n i fuel =
        (List.range ((total - i + n - 1) / n)).map
          (fun k => (i + k * n, min (i + k * n + n) total, (none : Option String))) := by
  intro fuel
  induction fuel with
  | zero =>
    intro i hf
    have hit : total ≤ i := by omega
    have hd : total - i = 0 := by omega
    rw [hd]
    have : (0 + n - 1) / n = 0 := Nat.div_eq_of_lt (by omega)
    rw [this]
    rfl
  | succ fuel ih =>
    intro i hf
    by_cases hi : i < total
    · have hd1 : 1 ≤ total - i := by omega
      have hm : (total - i + n - 1) / n = (total - i - 1) / n + 1 := by
        have h₁ : total - i + n - 1 = (total - i - 1) + n := by omega
        rw [h₁, Nat.add_div_right _ (by omega)]
      rw [hm, List.range_succ_eq_map]
      have hstep : buildEveryNGo total n i (fuel + 1)
          = (i, min (i + n) total, none) :: buildEveryNGo total n (min (i + n) total) fuel := by
        simp only [buildEveryNGo, if_pos hi]
      rw [hstep, List.map_cons, List.map_map]
      by_cases hle : i + n ≤ total
      · have hmin : min (i + n) total = i + n := Nat.min_eq_left hle
        rw [hmin]
        have hrec := ih (i + n) (by omega)
        have harg : (total - (i + n) + n - 1) / n = (total - i - 1) / n := by
          have : total - (i + n) + n - 1 = total - i - 1 := by omega
          rw [this]
        rw [harg] at hrec
        rw [hrec]
        refine congrArg₂ List.cons ?_ ?_
        · simp [hmin]
        · apply List.map_congr_left
          intro k _
          simp only [Function.comp_apply]
          have h₂ : i + n + k * n = i + Nat.succ k * n := by
            rw [Nat.succ_mul]
            omega
          rw [h₂]
      · have hmin : min (i + n) total = total := Nat.min_eq_right (by omega)
        rw [hmin]
        have hrec := ih total (by omega)
        have harg : (total - total + n - 1) / n = 0 := by
          have : total - total + n - 1 = n - 1 := by omega
          rw [this]
          exact Nat.div_eq_of_lt (by omega)
        rw [harg] at hrec
        have hsmall : (total - i - 1) / n = 0 := Nat.div_eq_of_lt (by omega)
        rw [hsmall]
        simp only [List.range_zero, List.map_nil]
        rw [hrec]
        simp [hmin]
    · have hd : total - i = 0 := by omega
      have : buildEveryNGo total n i (fuel + 1) = [] := by
        show (if i < total then _ else []) = []
        rw [if_neg hi]
      rw [this, hd]
      have : (0 + n - 1) / n = 0 := Nat.div_eq_of_lt (by omega)
      rw [this]
      rfl

theorem build_ranges_every_n_eq (total n : Nat) (hn : 1 ≤ n) :
    build_ranges_every_n total n =
      (List.range ((total + n - 1) / n)).map
        (fun k => (k * n, min (k * n + n) total, (none : Option String))) := by
  show buildEveryNGo total n 0 total = _
  rw [buildEveryNGo_eq total n hn total 0 (by omega)]
  have h₀ : total - 0 + n - 1 = total + n - 1 := by omega
  rw [h₀]
  apply List.map_congr_left
  intro k _
  simp

/-- Ceiling-division facts about `m = (P + n - 1) / n`. -/
theorem ceil_mul_ge (P n : Nat) (hn : 1 ≤ n) : P ≤ ((P + n - 1) / n) * n := by
  have h₁ : ((P + n - 1) / n) * n + (P + n - 1) % n = P + n - 1 := by
    rw [Nat.mul_comm]
    exact Nat.div_add_mod _ _
  have h₂ : (P + n - 1) % n < n := Nat.mod_lt _ (by omega)
  omega

theorem ceil_pred_mul_lt (P n : Nat) (hn : 1 ≤ n) (hP : 1 ≤ P) :
    (((P + n - 1) / n) - 1) * n < P := by
  have h₁ : ((P + n - 1) / n) * n ≤ P + n - 1 := Nat.div_mul_le_self _ _
  have h₂ : (((P + n - 1) / n) - 1) * n = ((P + n - 1) / n) * n - n := by
    rw [Nat.sub_mul, one_mul]
  omega

theorem ceil_pos (P n : Nat) (hn : 1 ≤ n) (hP : 1 ≤ P) : 1 ≤ (P + n - 1) / n :=
  (Nat.one_le_div_iff (by omega)).mpr (by omega)

/-- The size of the final fixed-stride block. -/
theorem last_block_size (P N : Nat) (hP : 1 ≤ P) (hN : 1 ≤ N) :
    P - ((P + N - 1) / N - 1) * N = if P % N = 0 then N else P % N := by
  have hdm : N * (P / N) + P % N = P := Nat.div_add_mod P N
  have hmod : P % N < N := Nat.mod_lt _ (by omega)
  by_cases hr : P % N = 0
  · rw [if_pos hr]
    have hq1 : 1 ≤ P / N := by
      rcases Nat.eq_zero_or_pos (P / N) with h0 | h1
      · rw [h0] at hdm; omega
      · exact h1
    have hmq : (P + N - 1) / N = P / N := by
      have hform : P + N - 1 = N * (P / N) + (N - 1) := by omega
      have h₁ : (N * (P / N) + (N - 1)) / N = P / N + (N - 1) / N :=
        Nat.mul_add_div (by omega) _ _
      have hz : (N - 1) / N = 0 := Nat.div_eq_of_lt (by omega)
      rw [hform, h₁, hz]
      omega
    rw [hmq]
    have h₅ : (P / N - 1) * N = (P / N) * N - N := by
      rw [Nat.sub_mul, one_mul]
    have h₆ : (P / N) * N = N * (P / N) := Nat.mul_comm _ _
    have h₇ : N ≤ N * (P / N) := Nat.le_mul_of_pos_right N hq1
    omega
  · rw [if_neg hr]
    have hn1 : N * (P / N + 1) = N * (P / N) + N := by
      rw [Nat.mul_add, Nat.mul_one]
    have hmq : (P + N - 1) / N = P / N + 1 := by
      have hform : P + N - 1 = N * (P / N + 1) + (P % N - 1) := by
        rw [hn1]
        omega
      have h₁ : (N * (P / N + 1) + (P % N - 1)) / N = (P / N + 1) + (P % N - 1) / N :=
        Nat.mul_add_div (by omega) _ _
      have hz : (P % N - 1) / N = 0 := Nat.div_eq_of_lt (by omega)
      rw [hform, h₁, hz]
    rw [hmq]
    have h₀ : P / N + 1 - 1 = P / N := Nat.succ_sub_one _
    rw [h₀, Nat.mul_comm (P / N) N]
    omega

/-- C8: fixed-stride partitioning with block size `N ≥ 1` on `P ≥ 1` pages
produces `⌈P/N⌉ = (P + N - 1) / N` ranges; every range except the last has
exactly `N` pages, the last has `P mod N` pages (or `N` when `P mod N = 0`),
and no range carries a captured label. -/
theorem claim_c8_fixed_stride_shape :
    ∀ P N : Nat, 1 ≤ P → 1 ≤ N →
      (build_ranges_every_n P N).length = (P + N - 1) / N ∧
      (∀ k r, (build_ranges_every_n P N).get? k = some r →
        k + 1 < (P + N - 1) / N → r.2.1 - r.1 = N) ∧
      ((build_ranges_every_n P N).getLast?.map (fun r => r.2.1 - r.1) =
        some (if P % N = 0 then N else P % N)) ∧
      (∀ r ∈ build_ranges_every_n P N, r.2.2 = none) := by
  intro P N hP hN
  rw [build_ranges_every_n_eq P N hN]
  set m := (P + N - 1) / N with hm
  have hub : P ≤ m * N := ceil_mul_ge P N hN
  have hm1 : 1 ≤ m := ceil_pos P N hN hP
  refine ⟨by simp, ?_, ?_, ?_⟩
  · intro k r hget hk
    have hkm : k < m := by omega
    rw [List.get?_map, List.get?_range hkm] at hget
    simp only [Option.map_some'] at hget
    have hkn : k * N + N ≤ P := by
      have hk1 : k + 1 ≤ m - 1 := by omega
      have h₂ : (k + 1) * N ≤ (m - 1) * N := Nat.mul_le_mul_right N hk1
      have h₃ : (k + 1) * N = k * N + N := by ring
      have h₄ : (m - 1) * N < P := ceil_pred_mul_lt P N hN hP
      omega
    obtain rfl := Option.some_inj.mp hget
    show min (k * N + N) P - k * N = N
    rw [Nat.min_eq_left hkn]
    omega
  · have hlast : (List.range m).getLast? = some (m - 1) := by
      conv_lhs => rw [show m = (m - 1) + 1 from by omega]
      rw [List.range_succ, List.getLast?_concat]
    rw [List.getLast?_map, hlast]
    dsimp only [Option.map_some']
    have hub' : P ≤ (m - 1) * N + N := by
      have h₁ : (m - 1) * N + N = ((m - 1) + 1) * N := by ring
      rw [h₁, show (m - 1) + 1 = m from by omega]
      exact hub
    rw [Nat.min_eq_right hub', hm]
    exact congrArg some (last_block_size P N hP hN)
  · intro r hr
    rw [List.mem_map] at hr
    obtain ⟨k, _, rfl⟩ := hr
    rfl

/-! ## Range-list geometry -/

theorem nonoverlap_of_contiguous (rs : List (Nat × Nat × Option String))
    (hc : rangesContiguous rs) (hle : ∀ r ∈ rs, r.1 ≤ r.2.1) :
    rangesNonOverlapping rs := by
  have key : ∀ j, (hj : j < rs.length) → ∀ i, (hij : i < j) →
      (rs.get ⟨i, by omega⟩).2.1 ≤ (rs.get ⟨j, hj⟩).1 := by
    intro j
    induction j with
    | zero => intro hj i hij; omega
    | succ j ihj =>
      intro hj i hij
      have hj' : j < rs.length := by omega
      have hchain := List.chain'_iff_get.mp hc j (by omega)
      by_cases hij' : i < j
      · have h1 := ihj hj' i hij'
        have h2 : (rs.get ⟨j, hj'⟩).1 ≤ (rs.get ⟨j, hj'⟩).2.1 :=
          hle _ (rs.get_mem _ _)
        omega
      · have hij2 : i = j := by omega
        subst hij2
        omega
  intro i j hi hj hne p hpi hpj
  obtain ⟨hpi1, hpi2⟩ := hpi
  obtain ⟨hpj1, hpj2⟩ := hpj
  rcases Nat.lt_or_ge i j with hlt | hge
  · have := key j hj i hlt
    omega
  · have hlt : j < i := by omega
    have := key i hi j hlt
    omega

/-! ## Pattern-based ranges: structure under ascending starts -/

theorem bfs_contiguous (total : Nat) :
    ∀ starts, rangesContiguous (build_ranges_from_starts total starts) := by
  intro starts
  induction starts with
  | nil => exact List.chain'_nil
  | cons s rest ih =>
    obtain ⟨p, lab⟩ := s
    show List.Chain' _ (_ :: build_ranges_from_starts total rest)
    rw [List.chain'_cons']
    refine ⟨?_, ih⟩
    intro y hy
    cases rest with
    | nil => simp [build_ranges_from_starts] at hy
    | cons s₂ rest₂ =>
      obtain ⟨q, lab₂⟩ := s₂
      simp only [build_ranges_from_starts, List.head?_cons, Option.mem_def,
        Option.some_inj] at hy
      rw [← hy]

theorem bfs_start_lt_end (total : Nat) :
    ∀ starts, List.Chain' (fun a b : Nat × Option String => a.1 < b.1) starts →
      (∀ s ∈ starts, s.1 < total) →
      ∀ r ∈ build_ranges_from_starts total starts, r.1 < r.2.1 := by
  intro starts
  induction starts with
  | nil => intro _ _ r hr; simp [build_ranges_from_starts] at hr
  | cons s rest ih =>
    intro hchain hbound r hr
    obtain ⟨p, lab⟩ := s
    simp only [build_ranges_from_starts, List.mem_cons] at hr
    rcases hr with rfl | hr
    · cases rest with
      | nil => exact hbound (p, lab) (List.mem_cons_self _ _)
      | cons s₂ rest₂ =>
        obtain ⟨q, lab₂⟩ := s₂
        exact (List.chain'_cons.mp hchain).1
    · exact ih ((List.chain'_cons'.mp hchain).2)
        (fun x hx => hbound x (List.mem_cons_of_mem _ hx)) r hr

theorem bfs_union (total : Nat) :
    ∀ rest (p₀ : Nat) (lab₀ : Option String),
      List.Chain' (fun a b : Nat × Option String => a.1 < b.1) ((p₀, lab₀) :: rest) →
      (∀ s ∈ (p₀, lab₀) :: rest, s.1 < total) →
      ∀ p, (∃ r ∈ build_ranges_from_starts total ((p₀, lab₀) :: rest), pageMem p r) ↔
        (p₀ ≤ p ∧ p < total) := by
  intro rest
  induction rest with
  | nil =>
    intro p₀ lab₀ _ hbound p
    simp only [build_ranges_from_starts, List.mem_singleton]
    constructor
    · rintro ⟨r, rfl, hm⟩
      exact hm
    · intro hp
      exact ⟨(p₀, total, lab₀), rfl, hp⟩
  | cons s₂ rest₂ ih =>
    intro p₀ lab₀ hchain hbound p
    obtain ⟨p₁, lab₁⟩ := s₂
    have h01 : p₀ < p₁ := (List.chain'_cons.mp hchain).1
    have ihspec := ih p₁ lab₁ (List.chain'_cons.mp hchain).2
      (fun x hx => hbound x (List.mem_cons_of_mem _ hx)) p
    show (∃ r ∈ (p₀, p₁, lab₀) ::
      build_ranges_from_starts total ((p₁, lab₁) :: rest₂), pageMem p r) ↔ _
    constructor
    · rintro ⟨r, hmem, hpm⟩
      rcases List.mem_cons.mp hmem with rfl | hmem₂
      · obtain ⟨h1, h2⟩ := hpm
        have h1' : p₀ ≤ p := h1
        have h2' : p < p₁ := h2
        have hp1 : p₁ < total := hbound (p₁, lab₁) (List.mem_cons_of_mem _ (List.mem_cons_self _ _))
        exact ⟨h1', by omega⟩
      · have := ihspec.mp ⟨r, hmem₂, hpm⟩
        exact ⟨by omega, this.2⟩
    · rintro ⟨hp0, hpt⟩
      by_cases hp1 : p < p₁
      · exact ⟨(p₀, p₁, lab₀), List.mem_cons_self _ _, hp0, hp1⟩
      · obtain ⟨r, hmem, hpm⟩ := ihspec.mpr ⟨by omega, hpt⟩
        exact ⟨r, List.mem_cons_of_mem _ hmem, hpm⟩

theorem bfs_last (total : Nat) :
    ∀ starts, starts ≠ [] →
      (build_ranges_from_starts total starts).getLast?.map (fun r => r.2.1) =
        some total := by
  intro starts
  induction starts with
  | nil => intro h; exact absurd rfl h
  | cons s rest ih =>
    intro _
    obtain ⟨p, lab⟩ := s
    cases rest with
    | nil => rfl
    | cons s₂ rest₂ =>
      obtain ⟨q, lab₂⟩ := s₂
      show (((p, q, lab) :: build_ranges_from_starts total ((q, lab₂) :: rest₂)).getLast?.map
        (fun r => r.2.1)) = some total
      have hne : build_ranges_from_starts total ((q, lab₂) :: rest₂) ≠ [] := by
        show (q, _, lab₂) :: _ ≠ []
        simp
      obtain ⟨r₂, l₂, hEq⟩ : ∃ r₂ l₂,
          build_ranges_from_starts total ((q, lab₂) :: rest₂) = r₂ :: l₂ :=
        ⟨_, _, rfl⟩
      rw [hEq, List.getLast?_cons_cons, ← hEq]
      exact ih (by simp)

/-! ## Fixed-stride ranges: structure -/

theorem every_n_total_pos (total n k : Nat) (hn : 1 ≤ n)
    (hk : k < (total + n - 1) / n) : 1 ≤ total := by
  have h₁ : 1 ≤ (total + n - 1) / n := by omega
  have h₂ : n ≤ total + n - 1 := (Nat.one_le_div_iff (by omega)).mp h₁
  omega

theorem every_n_start_lt_end (total n : Nat) (hn : 1 ≤ n) :
    ∀ r ∈ build_ranges_every_n total n, r.1 < r.2.1 := by
  rw [build_ranges_every_n_eq total n hn]
  intro r hr
  rw [List.mem_map] at hr
  obtain ⟨k, hk, rfl⟩ := hr
  rw [List.mem_range] at hk
  have htot : 1 ≤ total := every_n_total_pos total n k hn hk
  have hlt : k * n < total := by
    have h₁ : k ≤ (total + n - 1) / n - 1 := by omega
    have h₂ : k * n ≤ ((total + n - 1) / n - 1) * n := Nat.mul_le_mul_right n h₁
    have h₃ := ceil_pred_mul_lt total n hn htot
    omega
  show k * n < min (k * n + n) total
  exact lt_min (by omega) hlt

theorem every_n_contiguous (total n : Nat) (hn : 1 ≤ n) :
    rangesContiguous (build_ranges_every_n total n) := by
  rw [build_ranges_every_n_eq total n hn]
  rw [rangesContiguous, List.chain'_map, List.chain'_iff_get]
  intro i h
  rw [List.length_range] at h
  rw [List.get_range, List.get_range]
  show min (i * n + n) total = (i + 1) * n
  have htot : 1 ≤ total := every_n_total_pos total n i hn (by omega)
  have hle : i * n + n ≤ total := by
    have h₁ : i + 1 ≤ (total + n - 1) / n - 1 := by omega
    have h₂ : (i + 1) * n ≤ ((total + n - 1) / n - 1) * n := Nat.mul_le_mul_right n h₁
    have h₃ := ceil_pred_mul_lt total n hn htot
    have h₄ : (i + 1) * n = i * n + n := by rw [Nat.add_mul, one_mul]
    omega
  rw [Nat.min_eq_left hle, Nat.add_mul, one_mul]

theorem every_n_union (total n : Nat) (hn : 1 ≤ n) :
    ∀ p, (∃ r ∈ build_ranges_every_n total n, pageMem p r) ↔ p < total := by
  rw [build_ranges_every_n_eq total n hn]
  intro p
  constructor
  · rintro ⟨r, hmem, hpm⟩
    rw [List.mem_map] at hmem
    obtain ⟨k, _, rfl⟩ := hmem
    obtain ⟨h1, h2⟩ := hpm
    have h2' : p < min (k * n + n) total := h2
    have := Nat.min_le_right (k * n + n) total
    omega
  · intro hp
    have htot : 1 ≤ total := by omega
    refine ⟨(p / n * n, min (p / n * n + n) total, none), ?_, ?_, ?_⟩
    · rw [List.mem_map]
      refine ⟨p / n, List.mem_range.mpr ?_, rfl⟩
      have h₁ : p / n ≤ (total - 1) / n := Nat.div_le_div_right (by omega)
      have h₂ : (total + n - 1) / n = (total - 1) / n + 1 := by
        rw [show total + n - 1 = (total - 1) + n from by omega,
          Nat.add_div_right _ (by omega)]
      omega
    · exact Nat.div_mul_le_self p n
    · show p < min (p / n * n + n) total
      have hdm : n * (p / n) + p % n = p := Nat.div_add_mod p n
      have hmod : p % n < n := Nat.mod_lt _ (by omega)
      have hcomm : p / n * n = n * (p / n) := Nat.mul_comm _ _
      exact lt_min (by omega) hp

theorem every_n_last (total n : Nat) (hn : 1 ≤ n) (htot : 1 ≤ total) :
    (build_ranges_every_n total n).getLast?.map (fun r => r.2.1) = some total := by
  rw [build_ranges_every_n_eq total n hn]
  set m := (total + n - 1) / n with hm
  have hm1 : 1 ≤ m := ceil_pos total n hn htot
  have hlast : (List.range m).getLast? = some (m - 1) := by
    conv_lhs => rw [show m = (m - 1) + 1 from by omega]
    rw [List.range_succ, List.getLast?_concat]
  rw [List.getLast?_map, hlast]
  dsimp only [Option.map_some']
  have hub : total ≤ (m - 1) * n + n := by
    have h₁ : (m - 1) * n + n = ((m - 1) + 1) * n := by
      rw [Nat.add_mul, one_mul]
    rw [h₁, show (m - 1) + 1 = m from by omega, hm]
    exact ceil_mul_ge total n hn
  rw [Nat.min_eq_right hub]

/-- C1 (counterexample): for the pattern-based strategy the claimed union
`[0, total_pages)` fails when the first detected start is not page 0: with
`total_pages = 2` and the valid ascending start list `[(1, none)]` the
single produced range is `(1, 2)` and page 0 is uncovered. -/
theorem claim_c1_counterexample :
    List.Chain' (fun a b : Nat × Option String => a.1 < b.1)
      [((1 : Nat), (none : Option String))] ∧
    (∀ s ∈ [((1 : Nat), (none : Option String))], s.1 < 2) ∧
    ¬ (∃ r ∈ build_ranges_from_starts 2 [(1, none)], pageMem 0 r) := by
  refine ⟨List.chain'_singleton _, by decide, ?_⟩
  decide

/-- C1 (amended): for the pattern strategy on a non-empty strictly
ascending start list bounded by `total`, the ranges are contiguous,
non-overlapping, the last range ends at `total`, and their union is
`[first_start, total)` — equal to `[0, total)` exactly when the first
start is page 0; for the fixed-stride strategy with `N ≥ 1` the ranges
are contiguous, non-overlapping, the last ends at `total` (when `total ≥ 1`),
and the union is exactly `[0, total)`. -/
theorem claim_c1_amended_range_structure :
    (∀ (total p₀ : Nat) (lab₀ : Option String) (rest : List (Nat × Option String)),
      List.Chain' (fun a b : Nat × Option String => a.1 < b.1) ((p₀, lab₀) :: rest) →
      (∀ s ∈ (p₀, lab₀) :: rest, s.1 < total) →
      rangesContiguous (build_ranges_from_starts total ((p₀, lab₀) :: rest)) ∧
      rangesNonOverlapping (build_ranges_from_starts total ((p₀, lab₀) :: rest)) ∧
      (build_ranges_from_starts total ((p₀, lab₀) :: rest)).getLast?.map
        (fun r => r.2.1) = some total ∧
      (∀ p, (∃ r ∈ build_ranges_from_starts total ((p₀, lab₀) :: rest), pageMem p r) ↔
        (p₀ ≤ p ∧ p < total))) ∧
    (∀ total n : Nat, 1 ≤ n →
      rangesContiguous (build_ranges_every_n total n) ∧
      rangesNonOverlapping (build_ranges_every_n total n) ∧
      (1 ≤ total →
        (build_ranges_every_n total n).getLast?.map (fun r => r.2.1) = some total) ∧
      (∀ p, (∃ r ∈ build_ranges_every_n total n, pageMem p r) ↔ p < total)) := by
  constructor
  · intro total p₀ lab₀ rest hchain hbound
    refine ⟨bfs_contiguous total _, ?_, bfs_last total _ (by simp),
      bfs_union total rest p₀ lab₀ hchain hbound⟩
    exact nonoverlap_of_contiguous _ (bfs_contiguous total _)
      (fun r hr => Nat.le_of_lt (bfs_start_lt_end total _ hchain hbound r hr))
  · intro total n hn
    refine ⟨every_n_contiguous total n hn, ?_, every_n_last total n hn,
      every_n_union total n hn⟩
    exact nonoverlap_of_contiguous _ (every_n_contiguous total n hn)
      (fun r hr => Nat.le_of_lt (every_n_start_lt_end total n hn r hr))

/-- Witness for C1 (amended) at concrete inputs: starts `[(0, -), (4, "x")]`
with 9 pages, and stride 3 with 7 pages. -/
theorem claim_c1_amended_range_structure_witness :
    (List.Chain' (fun a b : Nat × Option String => a.1 < b.1)
      ((0, (none : Option String)) :: [(4, some "x")]) ∧
     (∀ s ∈ (0, (none : Option String)) :: [(4, some "x")], s.1 < 9) ∧
     (rangesContiguous (build_ranges_from_starts 9 ((0, none) :: [(4, some "x")])) ∧
      rangesNonOverlapping (build_ranges_from_starts 9 ((0, none) :: [(4, some "x")])) ∧
      (build_ranges_from_starts 9 ((0, none) :: [(4, some "x")])).getLast?.map
        (fun r => r.2.1) = some 9 ∧
      (∀ p, (∃ r ∈ build_ranges_from_starts 9 ((0, none) :: [(4, some "x")]),
        pageMem p r) ↔ (0 ≤ p ∧ p < 9)))) ∧
    (1 ≤ 3 ∧
     (rangesContiguous (build_ranges_every_n 7 3) ∧
      rangesNonOverlapping (build_ranges_every_n 7 3) ∧
      (1 ≤ 7 → (build_ranges_every_n 7 3).getLast?.map (fun r => r.2.1) = some 7) ∧
      (∀ p, (∃ r ∈ build_ranges_every_n 7 3, pageMem p r) ↔ p < 7))) :=
  ⟨⟨List.chain'_pair.mpr (by decide), by decide,
    claim_c1_amended_range_structure.1 9 0 none [(4, some "x")]
      (List.chain'_pair.mpr (by decide)) (by decide)⟩,
   by decide,
    claim_c1_amended_range_structure.2 7 3 (by decide)⟩

/-! ## The summary sheet: counting and sorting -/

theorem bumpAssoc_keys (acc : List (String × Nat)) (b : String) :
    (bumpAssoc acc b).map Prod.fst =
      if b ∈ acc.map Prod.fst then acc.map Prod.fst
      else acc.map Prod.fst ++ [b] := by
  induction acc with
  | nil => simp [bumpAssoc]
  | cons q rest ih =>
    obtain ⟨a, c⟩ := q
    by_cases hab : a = b
    · subst hab
      simp [bumpAssoc]
    · simp only [bumpAssoc, if_neg hab, List.map_cons, ih]
      by_cases hmem : b ∈ rest.map Prod.fst
      · simp [hmem, hab]
      · simp [hmem, hab, Ne.symm hab]

theorem bumpAssoc_values (processed : List String) :
    ∀ (acc : List (String × Nat)) (b : String),
      ((acc.map Prod.fst).Nodup) →
      (∀ q ∈ acc, q.2 = processed.count q.1) →
      (b ∈ acc.map Prod.fst ∨ processed.count b = 0) →
      ∀ q ∈ bumpAssoc acc b, q.2 = (processed ++ [b]).count q.1 := by
  intro acc
  induction acc with
  | nil =>
    intro b _ _ hb q hq
    simp only [bumpAssoc, List.mem_singleton] at hq
    subst hq
    have hc : processed.count b = 0 := by
      rcases hb with h | h
      · simp at h
      · exact h
    simp [List.count_append, hc]
  | cons p rest ih =>
    intro b hnodup hval hb q hq
    obtain ⟨a, c⟩ := p
    by_cases hab : a = b
    · subst hab
      have hq' : q = (a, c + 1) ∨ q ∈ rest := by
        have hb₁ : bumpAssoc ((a, c) :: rest) a = (a, c + 1) :: rest := by
          simp [bumpAssoc]
        rw [hb₁] at hq
        exact List.mem_cons.mp hq
      rcases hq' with hq | hq
      · rw [hq]
        have hc : c = processed.count a := hval (a, c) (List.mem_cons_self _ _)
        simp [List.count_append, ← hc]
      · have hq2 : q.2 = processed.count q.1 := hval q (List.mem_cons_of_mem _ hq)
        have hq1 : q.1 ∈ rest.map Prod.fst := List.mem_map_of_mem Prod.fst hq
        have hane : q.1 ≠ a := by
          intro hqa
          rw [hqa] at hq1
          simp only [List.map_cons, List.nodup_cons] at hnodup
          exact hnodup.1 hq1
        simp [List.count_append, hq2, hane]
    · have hq' : q = (a, c) ∨ q ∈ bumpAssoc rest b := by
        have hb₁ : bumpAssoc ((a, c) :: rest) b = (a, c) :: bumpAssoc rest b := by
          simp [bumpAssoc, hab]
        rw [hb₁] at hq
        exact List.mem_cons.mp hq
      rcases hq' with hq | hq
      · rw [hq]
        have hc : c = processed.count a := hval (a, c) (List.mem_cons_self _ _)
        simp [List.count_append, ← hc, Ne.symm hab, hab]
      · refine ih b ?_ ?_ ?_ q hq
        · simp only [List.map_cons, List.nodup_cons] at hnodup
          exact hnodup.2
        · intro q' hq'
          exact hval q' (List.mem_cons_of_mem _ hq')
        · rcases hb with h | h
          · simp only [List.map_cons, List.mem_cons] at h
            rcases h with h | h
            · exact absurd h.symm hab
            · exact Or.inl h
          · exact Or.inr h

theorem countsOf_foldl_good :
    ∀ (names : List String) (acc : List (String × Nat)) (processed : List String),
      (acc.map Prod.fst).Nodup →
      (∀ k, k ∈ acc.map Prod.fst ↔ k ∈ processed) →
      (∀ q ∈ acc, q.2 = processed.count q.1) →
      ((List.foldl bumpAssoc acc names).map Prod.fst).Nodup ∧
      (∀ k, k ∈ (List.foldl bumpAssoc acc names).map Prod.fst ↔ k ∈ processed ++ names) ∧
      (∀ q ∈ List.foldl bumpAssoc acc names, q.2 = (processed ++ names).count q.1) := by
  intro names
  induction names with
  | nil =>
    intro acc processed h1 h2 h3
    simp only [List.foldl_nil, List.append_nil]
    exact ⟨h1, h2, h3⟩
  | cons b rest ih =>
    intro acc processed h1 h2 h3
    have hb : b ∈ acc.map Prod.fst ∨ processed.count b = 0 := by
      by_cases hbp : b ∈ processed
      · exact Or.inl ((h2 b).mpr hbp)
      · exact Or.inr (List.count_eq_zero.mpr hbp)
    have h1' : ((bumpAssoc acc b).map Prod.fst).Nodup := by
      rw [bumpAssoc_keys]
      split_ifs with hmem
      · exact h1
      · rw [List.nodup_append]
        exact ⟨h1, List.nodup_singleton b, by simpa using hmem⟩
    have h2' : ∀ k, k ∈ (bumpAssoc acc b).map Prod.fst ↔ k ∈ processed ++ [b] := by
      intro k
      rw [bumpAssoc_keys]
      split_ifs with hmem
      · rw [h2 k, List.mem_append, List.mem_singleton]
        constructor
        · exact Or.inl
        · rintro (h | rfl)
          · exact h
          · exact (h2 k).mp hmem
      · rw [List.mem_append, List.mem_singleton, h2 k, List.mem_append, List.mem_singleton]
    have h3' : ∀ q ∈ bumpAssoc acc b, q.2 = (processed ++ [b]).count q.1 :=
      bumpAssoc_values processed acc b h1 h3 hb
    have hrec := ih (bumpAssoc acc b) (processed ++ [b]) h1' h2' h3'
    have hassoc : (processed ++ [b]) ++ rest = processed ++ b :: rest := by simp
    rw [hassoc] at hrec
    simp only [List.foldl_cons]
    exact hrec

theorem countsOf_spec (names : List String) :
    ((countsOf names).map Prod.fst).Nodup ∧
    (∀ k, k ∈ (countsOf names).map Prod.fst ↔ k ∈ names) ∧
    (∀ q ∈ countsOf names, q.2 = names.count q.1) := by
  have := countsOf_foldl_good names [] [] (by simp) (by simp) (by simp)
  simpa using this

/-- C9: the summary sheet has exactly one row per distinct detected name,
each row's count is the number of detail rows carrying that name, and the
rows are sorted by descending count with ties broken by ascending
(code-point order) name. -/
theorem claim_c9_summary_sheet :
    ∀ detalles : List DetRow,
      ((summary_rows detalles).map Prod.fst).Nodup ∧
      (∀ nm, nm ∈ (summary_rows detalles).map Prod.fst ↔
        nm ∈ detalles.map (fun r => r.nombre_detectado)) ∧
      (∀ q ∈ summary_rows detalles,
        q.2 = (detalles.map (fun r => r.nombre_detectado)).count q.1) ∧
      List.Sorted sumRel (summary_rows detalles) := by
  intro detalles
  obtain ⟨h1, h2, h3⟩ := countsOf_spec (detalles.map (fun r => r.nombre_detectado))
  have hperm : List.Perm (summary_rows detalles)
      (countsOf (detalles.map (fun r => r.nombre_detectado))) :=
    List.perm_insertionSort sumRel _
  refine ⟨?_, ?_, ?_, ?_⟩
  · exact ((hperm.map Prod.fst).nodup_iff).mpr h1
  · intro nm
    rw [(hperm.map Prod.fst).mem_iff]
    exact h2 nm
  · intro q hq
    exact h3 q (hperm.mem_iff.mp hq)
  · exact List.sorted_insertionSort sumRel _

/-! ## The export loop: rejected sections -/

theorem exportGo_counts (pages : List (List String)) (pre : String) (sp lpp : Nat) :
    ∀ (ranges : List (Nat × Nat × Option String)) (idx : Nat) (used : List (String × Nat)),
      (exportGo pages pre sp lpp ranges idx used).1.length =
        (exportGo pages pre sp lpp ranges idx used).2.1.length ∧
      (exportGo pages pre sp lpp ranges idx used).2.1.length +
        (exportGo pages pre sp lpp ranges idx used).2.2.length = ranges.length ∧
      (∀ j : Nat,
        (exportGo pages pre sp lpp ranges idx used).2.1.countP (fun r => r.orden == j) +
        (exportGo pages pre sp lpp ranges idx used).2.2.countP (fun r => r.orden == j) =
          if idx ≤ j ∧ j < idx + ranges.length then 1 else 0) := by
  intro ranges
  induction ranges with
  | nil =>
    intro idx used
    refine ⟨rfl, rfl, ?_⟩
    intro j
    simp only [List.length_nil]
    rw [if_neg (by omega)]
    rfl
  | cons rng rest ih =>
    intro idx used
    obtain ⟨start, stop, lab⟩ := rng
    cases hlaa : find_laa_descarga_in_section pages start stop sp lpp with
    | some v =>
      by_cases hneg : is_negative_number_string v = true
      · obtain ⟨ih1, ih2, ih3⟩ := ih (idx + 1) used
        refine ⟨?_, ?_, ?_⟩
        · simpa [exportGo, hlaa, hneg] using ih1
        · simp only [exportGo, hlaa, hneg, if_true, List.length_cons]
          omega
        · intro j
          have h3 := ih3 j
          simp only [exportGo, hlaa, hneg, if_true, List.countP_cons, List.length_cons]
          by_cases hj : idx = j
          · subst hj
            have hc1 : ¬ (idx + 1 ≤ idx ∧ idx < idx + 1 + rest.length) := by omega
            rw [if_neg hc1] at h3
            have hc2 : idx ≤ idx ∧ idx < idx + (rest.length + 1) := by omega
            rw [beq_self_eq_true, if_pos rfl, if_pos hc2]
            omega
          · rw [show (idx == j) = false from beq_eq_false_iff_ne.mpr hj,
              if_neg Bool.false_ne_true]
            by_cases hrange : idx + 1 ≤ j ∧ j < idx + 1 + rest.length
            · rw [if_pos hrange] at h3
              have hc2 : idx ≤ j ∧ j < idx + (rest.length + 1) := by omega
              rw [if_pos hc2]
              omega
            · rw [if_neg hrange] at h3
              have hc2 : ¬ (idx ≤ j ∧ j < idx + (rest.length + 1)) := by omega
              rw [if_neg hc2]
              omega
      · obtain ⟨ih1, ih2, ih3⟩ := ih (idx + 1)
          (pickName used (if pre = "" then
            sanitize_filename (resolveDetected
              (find_prof_name_in_section pages start stop sp lpp) lab idx)
          else
            sanitize_filename (pre ++ resolveDetected
              (find_prof_name_in_section pages start stop sp lpp) lab idx))).1
        have hneg2 : is_negative_number_string v = false := by
          cases h : is_negative_number_string v
          · rfl
          · exact absurd h hneg
        refine ⟨?_, ?_, ?_⟩
        · simp only [exportGo, hlaa, hneg2, Bool.false_eq_true, if_false, List.length_cons]
          rw [ih1]
        · simp only [exportGo, hlaa, hneg2, Bool.false_eq_true, if_false, List.length_cons]
          omega
        · intro j
          have h3 := ih3 j
          simp only [exportGo, hlaa, hneg2, Bool.false_eq_true, if_false,
            List.countP_cons, List.length_cons]
          by_cases hj : idx = j
          · subst hj
            have hc1 : ¬ (idx + 1 ≤ idx ∧ idx < idx + 1 + rest.length) := by omega
            rw [if_neg hc1] at h3
            have hc2 : idx ≤ idx ∧ idx < idx + (rest.length + 1) := by omega
            rw [beq_self_eq_true, if_pos rfl, if_pos hc2]
            omega
          · rw [show (idx == j) = false from beq_eq_false_iff_ne.mpr hj,
              if_neg Bool.false_ne_true]
            by_cases hrange : idx + 1 ≤ j ∧ j < idx + 1 + rest.length
            · rw [if_pos hrange] at h3
              have hc2 : idx ≤ j ∧ j < idx + (rest.length + 1) := by omega
              rw [if_pos hc2]
              omega
            · rw [if_neg hrange] at h3
              have hc2 : ¬ (idx ≤ j ∧ j < idx + (rest.length + 1)) := by omega
              rw [if_neg hc2]
              omega
    | none =>
      obtain ⟨ih1, ih2, ih3⟩ := ih (idx + 1)
        (pickName used (if pre = "" then
          sanitize_filename (resolveDetected
            (find_prof_name_in_section pages start stop sp lpp) lab idx)
        else
          sanitize_filename (pre ++ resolveDetected
            (find_prof_name_in_section pages start stop sp lpp) lab idx))).1
      refine ⟨?_, ?_, ?_⟩
      · simp only [exportGo, hlaa, List.length_cons]
        rw [ih1]
      · simp only [exportGo, hlaa, List.length_cons]
        omega
      · intro j
        have h3 := ih3 j
        simp only [exportGo, hlaa, List.countP_cons, List.length_cons]
        by_cases hj : idx = j
        · subst hj
          have hc1 : ¬ (idx + 1 ≤ idx ∧ idx < idx + 1 + rest.length) := by omega
          rw [if_neg hc1] at h3
          have hc2 : idx ≤ idx ∧ idx < idx + (rest.length + 1) := by omega
          rw [beq_self_eq_true, if_pos rfl, if_pos hc2]
          omega
        · rw [show (idx == j) = false from beq_eq_false_iff_ne.mpr hj,
            if_neg Bool.false_ne_true]
          by_cases hrange : idx + 1 ≤ j ∧ j < idx + 1 + rest.length
          · rw [if_pos hrange] at h3
            have hc2 : idx ≤ j ∧ j < idx + (rest.length + 1) := by omega
            rw [if_pos hc2]
            omega
          · rw [if_neg hrange] at h3
            have hc2 : ¬ (idx ≤ j ∧ j < idx + (rest.length + 1)) := by omega
            rw [if_neg hc2]
            omega


theorem exportGo_reject_mem (pages : List (List String)) (pre : String) (sp lpp : Nat) :
    ∀ (ranges : List (Nat × Nat × Option String)) (k : Nat) (hk : k < ranges.length)
      (idx : Nat) (used : List (String × Nat)) (v : String),
      find_laa_descarga_in_section pages (ranges.get ⟨k, hk⟩).1
        (ranges.get ⟨k, hk⟩).2.1 sp lpp = some v →
      is_negative_number_string v = true →
      ({ orden := idx + k,
         nombre_detectado := resolveDetected
           (find_prof_name_in_section pages (ranges.get ⟨k, hk⟩).1
             (ranges.get ⟨k, hk⟩).2.1 sp lpp) (ranges.get ⟨k, hk⟩).2.2 (idx + k),
         valor_laa_descarga := v, motivo := "LAA/DESCARGA negativo",
         pagina_inicio_1based := (ranges.get ⟨k, hk⟩).1 + 1,
         pagina_fin_1based := (ranges.get ⟨k, hk⟩).2.1,
         paginas_en_pdf := (ranges.get ⟨k, hk⟩).2.1 - (ranges.get ⟨k, hk⟩).1 } : ErrRow) ∈
        (exportGo pages pre sp lpp ranges idx used).2.2 := by
  intro ranges
  induction ranges with
  | nil =>
    intro k hk
    simp at hk
  | cons rng rest ih =>
    intro k hk idx used v hlaa hneg
    obtain ⟨start, stop, lab⟩ := rng
    cases k with
    | zero =>
      have hlaa' : find_laa_descarga_in_section pages start stop sp lpp = some v := hlaa
      simp only [exportGo, hlaa', hneg, if_true]
      exact List.mem_cons_self _ _
    | succ k₂ =>
      have hk₂ : k₂ < rest.length := by
        simp only [List.length_cons] at hk
        omega
      have hget : ((start, stop, lab) :: rest).get ⟨k₂ + 1, hk⟩ = rest.get ⟨k₂, hk₂⟩ := rfl
      rw [hget] at hlaa ⊢
      have harith : idx + (k₂ + 1) = (idx + 1) + k₂ := by omega
      rw [harith]
      cases hlaa₂ : find_laa_descarga_in_section pages start stop sp lpp with
      | some w =>
        by_cases hneg₂ : is_negative_number_string w = true
        · simp only [exportGo, hlaa₂, hneg₂, if_true]
          exact List.mem_cons_of_mem _ (ih k₂ hk₂ (idx + 1) used v hlaa hneg)
        · have hneg₂f : is_negative_number_string w = false := by
            cases h : is_negative_number_string w
            · rfl
            · exact absurd h hneg₂
          simp only [exportGo, hlaa₂, hneg₂f, Bool.false_eq_true, if_false]
          exact ih k₂ hk₂ (idx + 1) _ v hlaa hneg
      | none =>
        simp only [exportGo, hlaa₂]
        exact ih k₂ hk₂ (idx + 1) _ v hlaa hneg

/-- C6: a section whose LAA/DESCARGA value is classified negative
contributes exactly one rejection row (with its 1-based order index,
detected name, raw value, reason, and 1-based page range) and no detail
row, archive entries pair up one-to-one with detail rows, and processing
continues: detail and rejection rows together account for every section. -/
theorem claim_c6_negative_section_rejected :
    ∀ (pages : List (List String)) (ranges : List (Nat × Nat × Option String))
      (pre : String) (sp lpp k : Nat) (hk : k < ranges.length) (v : String),
      find_laa_descarga_in_section pages (ranges.get ⟨k, hk⟩).1
        (ranges.get ⟨k, hk⟩).2.1 sp lpp = some v →
      is_negative_number_string v = true →
      ({ orden := k + 1,
         nombre_detectado := resolveDetected
           (find_prof_name_in_section pages (ranges.get ⟨k, hk⟩).1
             (ranges.get ⟨k, hk⟩).2.1 sp lpp) (ranges.get ⟨k, hk⟩).2.2 (k + 1),
         valor_laa_descarga := v, motivo := "LAA/DESCARGA negativo",
         pagina_inicio_1based := (ranges.get ⟨k, hk⟩).1 + 1,
         pagina_fin_1based := (ranges.get ⟨k, hk⟩).2.1,
         paginas_en_pdf := (ranges.get ⟨k, hk⟩).2.1 - (ranges.get ⟨k, hk⟩).1 } : ErrRow) ∈
        (export_zip_and_excel pages ranges pre sp lpp).2.2 ∧
      (export_zip_and_excel pages ranges pre sp lpp).2.2.countP
        (fun r => r.orden == k + 1) = 1 ∧
      (export_zip_and_excel pages ranges pre sp lpp).2.1.countP
        (fun r => r.orden == k + 1) = 0 ∧
      (export_zip_and_excel pages ranges pre sp lpp).1.length =
        (export_zip_and_excel pages ranges pre sp lpp).2.1.length ∧
      (export_zip_and_excel pages ranges pre sp lpp).2.1.length +
        (export_zip_and_excel pages ranges pre sp lpp).2.2.length = ranges.length := by
  intro pages ranges pre sp lpp k hk v hlaa hneg
  simp only [export_zip_and_excel]
  obtain ⟨hlen1, hlen2, hcount⟩ := exportGo_counts pages pre sp lpp ranges 1 []
  have hmem := exportGo_reject_mem pages pre sp lpp ranges k hk 1 [] v hlaa hneg
  rw [Nat.add_comm 1 k] at hmem
  have hcnt := hcount (k + 1)
  have hc : 1 ≤ k + 1 ∧ k + 1 < 1 + ranges.length := by omega
  rw [if_pos hc] at hcnt
  have herrpos : 0 < (exportGo pages pre sp lpp ranges 1 []).2.2.countP
      (fun r => r.orden == k + 1) :=
    List.countP_pos.mpr ⟨_, hmem, by simp⟩
  exact ⟨hmem, by omega, by omega, hlen1, hlen2⟩

/-- Witness for C6: one section whose LAA/DESCARGA reads `-5`. -/
theorem claim_c6_negative_section_rejected_witness :
    find_laa_descarga_in_section [["LAA/DESCARGA: -5"]] 0 1 2 60 = some "-5" ∧
    is_negative_number_string "-5" = true ∧
    ({ orden := 1, nombre_detectado := "Plan_001", valor_laa_descarga := "-5",
       motivo := "LAA/DESCARGA negativo", pagina_inicio_1based := 1,
       pagina_fin_1based := 1, paginas_en_pdf := 1 } : ErrRow) ∈
      (export_zip_and_excel [["LAA/DESCARGA: -5"]] [(0, 1, none)] "" 2 60).2.2 ∧
    (export_zip_and_excel [["LAA/DESCARGA: -5"]] [(0, 1, none)] "" 2 60).2.1.countP
      (fun r => r.orden == 1) = 0 := by
  have h := claim_c6_negative_section_rejected [["LAA/DESCARGA: -5"]] [(0, 1, none)]
    "" 2 60 0 (by decide) "-5" (by decide) (by decide)
  exact ⟨by decide, by decide, h.1, h.2.2.1⟩

/-- Witness for C8 at `P = 7`, `N = 3`. -/
theorem claim_c8_fixed_stride_shape_witness :
    1 ≤ 7 ∧ 1 ≤ 3 ∧
      ((build_ranges_every_n 7 3).length = (7 + 3 - 1) / 3 ∧
      (∀ k r, (build_ranges_every_n 7 3).get? k = some r →
        k + 1 < (7 + 3 - 1) / 3 → r.2.1 - r.1 = 3) ∧
      ((build_ranges_every_n 7 3).getLast?.map (fun r => r.2.1 - r.1) =
        some (if 7 % 3 = 0 then 3 else 7 % 3)) ∧
      (∀ r ∈ build_ranges_every_n 7 3, r.2.2 = none)) :=
  ⟨by decide, by decide, claim_c8_fixed_stride_shape 7 3 (by decide) (by decide)⟩

/-! ## The sanitizer: stability analysis -/

theorem noLeadSpaceB_eq_head (m : List Char) :
    noLeadSpaceB m = (match m.head? with | none => true | some c => !pyIsSpace c) := by
  cases m <;> rfl

theorem noLead_reverse (l : List Char) : noLeadSpaceB l.reverse = noTrailSpaceB l := by
  rw [noLeadSpaceB_eq_head, List.head?_reverse]
  rfl

theorem dropWhile_eq_self_of_noLead (l : List Char) (h : noLeadSpaceB l = true) :
    l.dropWhile pyIsSpace = l := by
  cases l with
  | nil => rfl
  | cons c r =>
    have hc : pyIsSpace c = false := by
      simp only [noLeadSpaceB, Bool.not_eq_true'] at h
      exact h
    simp [List.dropWhile_cons, hc]

theorem strip_eq_self (l : List Char) (hlead : noLeadSpaceB l = true)
    (htrail : noTrailSpaceB l = true) : stripChars l = l := by
  unfold stripChars
  rw [dropWhile_eq_self_of_noLead l hlead]
  rw [dropWhile_eq_self_of_noLead l.reverse (by rw [noLead_reverse]; exact htrail)]
  exact List.reverse_reverse l

theorem noLead_dropWhile (l : List Char) :
    noLeadSpaceB (l.dropWhile pyIsSpace) = true := by
  induction l with
  | nil => rfl
  | cons c r ih =>
    rw [List.dropWhile_cons]
    split_ifs with h
    · exact ih
    · simp only [noLeadSpaceB, Bool.not_eq_true']
      exact Bool.of_not_eq_true h

theorem noLead_take (l : List Char) (m : Nat) (h : noLeadSpaceB l = true) :
    noLeadSpaceB (l.take m) = true := by
  cases l with
  | nil => simp [noLeadSpaceB]
  | cons c r =>
    cases m with
    | zero => rfl
    | succ m => exact h

theorem stripChars_prefix (y : List Char) :
    (y.reverse.dropWhile pyIsSpace).reverse <+: y := by
  have h₁ : y.reverse.dropWhile pyIsSpace <:+ y.reverse := List.dropWhile_suffix _
  have h₂ : ((y.reverse.dropWhile pyIsSpace).reverse).reverse <:+ y.reverse := by
    rw [List.reverse_reverse]
    exact h₁
  exact List.reverse_suffix.mp h₂

theorem noLead_stripChars (l : List Char) : noLeadSpaceB (stripChars l) = true := by
  unfold stripChars
  have hy : noLeadSpaceB (l.dropWhile pyIsSpace) = true := noLead_dropWhile l
  have hpre := stripChars_prefix (l.dropWhile pyIsSpace)
  rw [List.prefix_iff_eq_take.mp hpre]
  exact noLead_take _ _ hy

theorem collapseWSAux_head_indep (l : List Char) (b₁ b₂ : Bool)
    (h : noLeadSpaceB l = true) : collapseWSAux b₁ l = collapseWSAux b₂ l := by
  cases l with
  | nil => rfl
  | cons c r =>
    have hc : pyIsSpace c = false := by
      simp only [noLeadSpaceB, Bool.not_eq_true'] at h
      exact h
    simp [collapseWSAux, hc]

theorem collapse_noLead_true (l : List Char) :
    noLeadSpaceB (collapseWSAux true l) = true := by
  induction l with
  | nil => rfl
  | cons c r ih =>
    by_cases hc : pyIsSpace c = true
    · simpa [collapseWSAux, hc] using ih
    · have hc' : pyIsSpace c = false := by simpa using hc
      simp [collapseWSAux, hc', noLeadSpaceB]

theorem collapse_isolated (l : List Char) :
    ∀ b, isolatedSpaces (collapseWSAux b l) = true := by
  induction l with
  | nil => intro b; rfl
  | cons c r ih =>
    intro b
    by_cases hc : pyIsSpace c = true
    · cases b
      · have hstep : collapseWSAux false (c :: r) = ' ' :: collapseWSAux true r := by
          simp [collapseWSAux, hc]
        rw [hstep]
        have h1 : pyIsSpace ' ' = true := by decide
        simp [isolatedSpaces, h1, collapse_noLead_true r, ih true]
      · have hstep : collapseWSAux true (c :: r) = collapseWSAux true r := by
          simp [collapseWSAux, hc]
        rw [hstep]
        exact ih true
    · have hc' : pyIsSpace c = false := by simpa using hc
      have hstep : collapseWSAux b (c :: r) = c :: collapseWSAux false r := by
        simp [collapseWSAux, hc']
      rw [hstep]
      simp [isolatedSpaces, hc', ih false]

theorem collapse_fix (l : List Char) (h : isolatedSpaces l = true) :
    collapseWS l = l := by
  unfold collapseWS
  induction l with
  | nil => rfl
  | cons c r ih =>
    simp only [isolatedSpaces, Bool.and_eq_true] at h
    obtain ⟨hhead, hrest⟩ := h
    by_cases hc : pyIsSpace c = true
    · rw [if_pos hc, Bool.and_eq_true] at hhead
      obtain ⟨hsp, hlead⟩ := hhead
      have hcsp : c = ' ' := by simpa using hsp
      have hstep : collapseWSAux false (c :: r) = ' ' :: collapseWSAux true r := by
        simp [collapseWSAux, hc]
      rw [hstep, collapseWSAux_head_indep r true false hlead, ih hrest, hcsp]
    · have hc' : pyIsSpace c = false := by simpa using hc
      have hstep : collapseWSAux false (c :: r) = c :: collapseWSAux false r := by
        simp [collapseWSAux, hc']
      rw [hstep, ih hrest]

theorem collapse_mem (l : List Char) :
    ∀ b c, c ∈ collapseWSAux b l → c = ' ' ∨ c ∈ l := by
  induction l with
  | nil => intro b c hc; cases hc
  | cons a r ih =>
    intro b c hc
    by_cases ha : pyIsSpace a = true
    · cases b
      · simp only [collapseWSAux, ha, if_true] at hc
        rcases List.mem_cons.mp hc with rfl | hc
        · exact Or.inl rfl
        · rcases ih true c hc with h | h
          · exact Or.inl h
          · exact Or.inr (List.mem_cons_of_mem _ h)
      · simp only [collapseWSAux, ha, if_true] at hc
        rcases ih true c hc with h | h
        · exact Or.inl h
        · exact Or.inr (List.mem_cons_of_mem _ h)
    · have ha' : pyIsSpace a = false := by simpa using ha
      simp only [collapseWSAux, ha', Bool.false_eq_true, if_false] at hc
      rcases List.mem_cons.mp hc with rfl | hc
      · exact Or.inr (List.mem_cons_self _ _)
      · rcases ih false c hc with h | h
        · exact Or.inl h
        · exact Or.inr (List.mem_cons_of_mem _ h)

theorem collapse_noLead (l : List Char) (h : noLeadSpaceB l = true) :
    noLeadSpaceB (collapseWS l) = true := by
  cases l with
  | nil => rfl
  | cons c r =>
    have hc : pyIsSpace c = false := by
      simp only [noLeadSpaceB, Bool.not_eq_true'] at h
      exact h
    show noLeadSpaceB (collapseWSAux false (c :: r)) = true
    simp [collapseWSAux, hc, noLeadSpaceB]

theorem isolated_take (l : List Char) :
    ∀ m, isolatedSpaces l = true → isolatedSpaces (l.take m) = true := by
  induction l with
  | nil => intro m _; simp [isolatedSpaces]
  | cons c r ih =>
    intro m h
    cases m with
    | zero => rfl
    | succ m =>
      simp only [isolatedSpaces, Bool.and_eq_true] at h
      obtain ⟨hhead, hrest⟩ := h
      rw [List.take_succ_cons]
      simp only [isolatedSpaces, Bool.and_eq_true]
      refine ⟨?_, ih m hrest⟩
      by_cases hc : pyIsSpace c = true
      · rw [if_pos hc] at hhead ⊢
        rw [Bool.and_eq_true] at hhead ⊢
        obtain ⟨hsp, hlead⟩ := hhead
        exact ⟨hsp, noLead_take r m hlead⟩
      · rw [if_neg hc]

theorem mem_stripChars (l : List Char) (c : Char) (h : c ∈ stripChars l) : c ∈ l := by
  unfold stripChars at h
  rw [List.mem_reverse] at h
  have h₁ := (List.dropWhile_suffix pyIsSpace).subset h
  rw [List.mem_reverse] at h₁
  exact (List.dropWhile_suffix pyIsSpace).subset h₁

/-- Structural invariants of every sanitizer output. -/
theorem sanitizeList_props (l : List Char) (maxLen : Nat) :
    (∀ c ∈ sanitizeList l maxLen, pyAllowed c = true) ∧
    noLeadSpaceB (sanitizeList l maxLen) = true ∧
    isolatedSpaces (sanitizeList l maxLen) = true ∧
    ((sanitizeList l maxLen).length ≤ maxLen ∨
      sanitizeList l maxLen = ['P', 'l', 'a', 'n']) := by
  simp only [sanitizeList]
  split_ifs with hempty
  · exact ⟨by decide, by decide, by decide, Or.inr rfl⟩
  · refine ⟨?_, ?_, ?_, Or.inl (List.length_take_le _ _)⟩
    · intro c hc
      have hc₁ := List.take_subset _ _ hc
      rcases collapse_mem _ _ _ hc₁ with rfl | hc₂
      · decide
      · have hc₃ := mem_stripChars _ _ hc₂
        exact List.of_mem_filter hc₃
    · exact noLead_take _ _ (collapse_noLead _ (noLead_stripChars _))
    · exact isolated_take _ _ (collapse_isolated _ false)

/-- The sanitizer fixes any list already in sanitized shape. -/
theorem sanitizeList_stable (r : List Char) (maxLen : Nat)
    (hall : ∀ c ∈ r, pyAllowed c = true)
    (hlead : noLeadSpaceB r = true) (htrail : noTrailSpaceB r = true)
    (hiso : isolatedSpaces r = true) (hlen : r.length ≤ maxLen) (hne : r ≠ []) :
    sanitizeList r maxLen = r := by
  simp only [sanitizeList]
  rw [List.filter_eq_self.mpr hall, strip_eq_self r hlead htrail, collapse_fix r hiso,
    List.take_of_length_le hlen]
  rw [if_neg (by simpa using hne)]

/-- C3 (counterexample): the sanitizer is not idempotent.  For a string of
99 `a`s followed by `" b"`, sanitizing leaves a trailing space after
truncation to 100 code points, and sanitizing again strips it. -/
theorem claim_c3_counterexample :
    sanitize_filename
        (sanitize_filename (String.mk (List.replicate 99 'a' ++ [' ', 'b']))) ≠
      sanitize_filename (String.mk (List.replicate 99 'a' ++ [' ', 'b'])) := by
  decide

/-- C3 (amended): the sanitizer is idempotent on every input whose
sanitized form does not end in whitespace (truncation at the length limit
can otherwise expose a trailing space), for any maximum length of at least
4 (the length of the `"Plan"` placeholder). -/
theorem claim_c3_amended_sanitize_idempotent :
    ∀ (s : String) (maxLen : Nat), 4 ≤ maxLen →
      noTrailSpaceB (sanitize_filename s maxLen).data = true →
      sanitize_filename (sanitize_filename s maxLen) maxLen =
        sanitize_filename s maxLen := by
  intro s maxLen h4 htrail
  show String.mk (sanitizeList (sanitizeList s.data maxLen) maxLen) =
    String.mk (sanitizeList s.data maxLen)
  obtain ⟨hall, hlead, hiso, hlen⟩ := sanitizeList_props s.data maxLen
  have htrail' : noTrailSpaceB (sanitizeList s.data maxLen) = true := htrail
  rcases hlen with hlen | hplan
  · rw [sanitizeList_stable _ maxLen hall hlead htrail' hiso hlen
      (sanitizeList_ne_nil _ _)]
  · rw [hplan]
    rw [sanitizeList_stable _ maxLen (by decide) (by decide) (by decide) (by decide)
      (by simpa using h4) (by decide)]

/-! ## Collision-suffixed file names: decomposition -/

theorem string_data_inj (x y : String) (h : x.data = y.data) : x = y := by
  cases x
  cases y
  simp only at h
  rw [h]

theorem append_pdf_cancel (x y : String) (h : x ++ ".pdf" = y ++ ".pdf") : x = y := by
  have hd := congrArg String.data h
  rw [String.data_append, String.data_append] at hd
  exact string_data_inj _ _ (List.append_cancel_right hd)

theorem encName_data (b : String) (k : Nat) :
    (encName b k).data = b.data ++ '_' :: '(' :: (natToDec k ++ [')']) := by
  simp [encName, String.data_append, List.append_assoc]

theorem takeWhile_all_append (p : Char → Bool) :
    ∀ (l : List Char) (c : Char) (r : List Char),
      (∀ x ∈ l, p x = true) → p c = false →
      (l ++ c :: r).takeWhile p = l := by
  intro l
  induction l with
  | nil =>
    intro c r _ hc
    simp [List.takeWhile_cons, hc]
  | cons a l ih =>
    intro c r hall hc
    have ha := hall a (List.mem_cons_self _ _)
    simp only [List.cons_append, List.takeWhile_cons, ha, if_true]
    rw [ih c r (fun x hx => hall x (List.mem_cons_of_mem _ hx)) hc]

theorem encChars_inj (b₁ b₂ : List Char) (k₁ k₂ : Nat)
    (h : b₁ ++ '_' :: '(' :: (natToDec k₁ ++ [')']) =
         b₂ ++ '_' :: '(' :: (natToDec k₂ ++ [')'])) :
    b₁ = b₂ ∧ k₁ = k₂ := by
  have e₁ : ∀ (b : List Char) (k : Nat),
      (b ++ '_' :: '(' :: (natToDec k ++ [')'])).reverse
        = ')' :: ((natToDec k).reverse ++ '(' :: '_' :: b.reverse) := by
    intro b k
    simp [List.reverse_append]
  have hrev : ')' :: ((natToDec k₁).reverse ++ '(' :: '_' :: b₁.reverse)
      = ')' :: ((natToDec k₂).reverse ++ '(' :: '_' :: b₂.reverse) := by
    rw [← e₁ b₁ k₁, ← e₁ b₂ k₂, h]
  injection hrev with _ hrev₂
  have ht := congrArg (List.takeWhile Char.isDigit) hrev₂
  rw [takeWhile_all_append _ _ _ _
      (fun x hx => natToDec_all_digit k₁ x (List.mem_reverse.mp hx)) (by decide),
    takeWhile_all_append _ _ _ _
      (fun x hx => natToDec_all_digit k₂ x (List.mem_reverse.mp hx)) (by decide)] at ht
  have hd : natToDec k₁ = natToDec k₂ := by
    have := congrArg List.reverse ht
    simpa using this
  have hk : k₁ = k₂ := natToDec_injective hd
  rw [hd] at hrev₂
  have hx := List.append_cancel_left hrev₂
  injection hx with _ hx₂
  injection hx₂ with _ hx₃
  have hb : b₁ = b₂ := by
    have := congrArg List.reverse hx₃
    simpa using this
  exact ⟨hb, hk⟩

theorem encName_inj (b₁ b₂ : String) (k₁ k₂ : Nat)
    (h : encName b₁ k₁ = encName b₂ k₂) : b₁ = b₂ ∧ k₁ = k₂ := by
  have hd := congrArg String.data h
  rw [encName_data, encName_data] at hd
  obtain ⟨hb, hk⟩ := encChars_inj _ _ _ _ hd
  exact ⟨string_data_inj _ _ hb, hk⟩

theorem lookup_setUsed (used : List (String × Nat)) (k j : String) (v : Nat) :
    List.lookup j (setUsed used k v) = if j = k then some v else List.lookup j used := by
  induction used with
  | nil =>
    by_cases h : j = k
    · simp [setUsed, List.lookup, beq_iff_eq, h]
    · have hbeq : (j == k) = false := beq_eq_false_iff_ne.mpr h
      simp [setUsed, List.lookup, hbeq, h]
  | cons p rest ih =>
    obtain ⟨a, c⟩ := p
    by_cases hak : a = k
    · subst hak
      by_cases hj : j = a
      · simp [setUsed, List.lookup, beq_iff_eq, hj]
      · have hbeq : (j == a) = false := beq_eq_false_iff_ne.mpr hj
        simp [setUsed, List.lookup, hbeq, hj]
    · by_cases hj : j = a
      · subst hj
        have hjk : ¬ j = k := fun hh => hak hh
        simp [setUsed, List.lookup, beq_iff_eq, hak, hjk]
      · have hbeq : (j == a) = false := beq_eq_false_iff_ne.mpr hj
        simp [setUsed, List.lookup, hak, hbeq, ih]

theorem assignNames_length : ∀ (bases : List String) (used : List (String × Nat)),
    (assignNames used bases).length = bases.length := by
  intro bases
  induction bases with
  | nil => intro used; rfl
  | cons b rest ih => intro used; simp [assignNames, ih]

theorem assignNames_get :
    ∀ (bases : List String) (used : List (String × Nat)) (processed : List String),
      (∀ b, List.lookup b used =
        if processed.count b = 0 then none else some (processed.count b)) →
      ∀ i, ∀ hi : i < bases.length,
        (assignNames used bases).get? i =
          some ((if (processed ++ bases.take i).count (bases.get ⟨i, hi⟩) = 0
                 then bases.get ⟨i, hi⟩
                 else encName (bases.get ⟨i, hi⟩)
                   ((processed ++ bases.take i).count (bases.get ⟨i, hi⟩) + 1)) ++ ".pdf") := by
  intro bases
  induction bases with
  | nil =>
    intro used processed _ i hi
    exact absurd hi (by simp)
  | cons b₀ rest ih =>
    intro used processed hinv i hi
    have hl := hinv b₀
    by_cases hc0 : processed.count b₀ = 0
    · rw [if_pos hc0] at hl
      have hpick : pickName used b₀ = (setUsed used b₀ 1, b₀) := by
        simp [pickName, hl]
      have hinv' : ∀ b, List.lookup b (setUsed used b₀ 1) =
          if (processed ++ [b₀]).count b = 0 then none
          else some ((processed ++ [b₀]).count b) := by
        intro b
        rw [lookup_setUsed]
        by_cases hb : b = b₀
        · subst hb
          have hcnt : (processed ++ [b]).count b = 1 := by
            rw [List.count_append, hc0]
            simp
          rw [if_pos rfl, hcnt]
          simp
        · have hcnt : (processed ++ [b₀]).count b = processed.count b := by
            rw [List.count_append]
            simp [List.count_cons, hb]
          rw [if_neg hb, hinv b, hcnt]
      cases i with
      | zero =>
        simp [assignNames, hpick, hc0]
      | succ i₂ =>
        have hi₂ : i₂ < rest.length := by
          simp only [List.length_cons] at hi
          omega
        have hrec := ih (setUsed used b₀ 1) (processed ++ [b₀]) hinv' i₂ hi₂
        have hshape : assignNames used (b₀ :: rest)
            = (b₀ ++ ".pdf") :: assignNames (setUsed used b₀ 1) rest := by
          simp [assignNames, hpick]
        rw [hshape, List.get?_cons_succ, List.take_succ_cons]
        have happ : processed ++ b₀ :: rest.take i₂ = (processed ++ [b₀]) ++ rest.take i₂ := by
          simp
        rw [happ]
        exact hrec
    · rw [if_neg hc0] at hl
      have hpick : pickName used b₀
          = (setUsed used b₀ (processed.count b₀ + 1),
             encName b₀ (processed.count b₀ + 1)) := by
        simp [pickName, hl, encName]
      have hinv' : ∀ b, List.lookup b (setUsed used b₀ (processed.count b₀ + 1)) =
          if (processed ++ [b₀]).count b = 0 then none
          else some ((processed ++ [b₀]).count b) := by
        intro b
        rw [lookup_setUsed]
        by_cases hb : b = b₀
        · subst hb
          have hcnt : (processed ++ [b]).count b = processed.count b + 1 := by
            rw [List.count_append]
            simp
          rw [if_pos rfl, hcnt]
          simp
        · have hcnt : (processed ++ [b₀]).count b = processed.count b := by
            rw [List.count_append]
            simp [List.count_cons, hb]
          rw [if_neg hb, hinv b, hcnt]
      cases i with
      | zero =>
        simp [assignNames, hpick, hc0]
      | succ i₂ =>
        have hi₂ : i₂ < rest.length := by
          simp only [List.length_cons] at hi
          omega
        have hrec := ih (setUsed used b₀ (processed.count b₀ + 1))
          (processed ++ [b₀]) hinv' i₂ hi₂
        have hshape : assignNames used (b₀ :: rest)
            = (encName b₀ (processed.count b₀ + 1) ++ ".pdf")
              :: assignNames (setUsed used b₀ (processed.count b₀ + 1)) rest := by
          simp [assignNames, hpick]
        rw [hshape, List.get?_cons_succ, List.take_succ_cons]
        have happ : processed ++ b₀ :: rest.take i₂ = (processed ++ [b₀]) ++ rest.take i₂ := by
          simp
        rw [happ]
        exact hrec

theorem assignNames_get_nil (bases : List String) (i : Nat) (hi : i < bases.length) :
    (assignNames [] bases).get? i =
      some ((if (bases.take i).count (bases.get ⟨i, hi⟩) = 0
             then bases.get ⟨i, hi⟩
             else encName (bases.get ⟨i, hi⟩)
               ((bases.take i).count (bases.get ⟨i, hi⟩) + 1)) ++ ".pdf") := by
  have h := assignNames_get bases [] [] (by intro b; simp [List.lookup]) i hi
  simpa using h

theorem count_take_lt (bases : List String) (i j : Nat) (hij : i < j)
    (hi : i < bases.length) :
    (bases.take i).count (bases.get ⟨i, hi⟩) < (bases.take j).count (bases.get ⟨i, hi⟩) := by
  have h1 : bases.take (i+1) = bases.take i ++ [bases.get ⟨i, hi⟩] := by
    rw [List.take_succ]
    rw [show bases[i]? = some (bases.get ⟨i, hi⟩) from by
      rw [List.getElem?_eq_getElem hi]
      rfl]
    rfl
  have h2 : (bases.take (i+1)).count (bases.get ⟨i, hi⟩)
      = (bases.take i).count (bases.get ⟨i, hi⟩) + 1 := by
    rw [h1, List.count_append]
    simp
  have hpre : bases.take (i+1) = (bases.take j).take (i+1) := by
    rw [List.take_take]
    congr 1
    omega
  have h3 : (bases.take (i+1)).count (bases.get ⟨i, hi⟩)
      ≤ (bases.take j).count (bases.get ⟨i, hi⟩) := by
    rw [hpre]
    exact (List.take_prefix _ _).sublist.count_le _
  omega

theorem count_take_le_index (bases : List String) (j : Nat) (b : String) :
    (bases.take j).count b ≤ j := by
  calc (bases.take j).count b ≤ (bases.take j).length := List.count_le_length b _
    _ ≤ j := List.length_take_le j bases

theorem assignNames_nodup (bases : List String)
    (hgood : ∀ k ∈ List.range (bases.length + 1), 2 ≤ k →
      ∀ b ∈ bases, ∀ b₂ ∈ bases, b ≠ encName b₂ k) :
    (assignNames [] bases).Nodup := by
  rw [List.nodup_iff_get?_ne_get?]
  intro i j hij hj
  rw [assignNames_length] at hj
  have hi' : i < bases.length := lt_trans hij hj
  rw [assignNames_get_nil bases i hi', assignNames_get_nil bases j hj]
  intro heq
  have heq₂ := Option.some.inj heq
  have heq₃ := append_pdf_cancel _ _ heq₂
  have hmi : bases.get ⟨i, hi'⟩ ∈ bases := List.get_mem bases i hi'
  have hmj : bases.get ⟨j, hj⟩ ∈ bases := List.get_mem bases j hj
  have hlt := count_take_lt bases i j hij hi'
  have hbi := count_take_le_index bases i (bases.get ⟨i, hi'⟩)
  have hbj := count_take_le_index bases j (bases.get ⟨j, hj⟩)
  split_ifs at heq₃ with hci hcj hcj
  · rw [heq₃] at hlt
    omega
  · exact hgood ((bases.take j).count (bases.get ⟨j, hj⟩) + 1)
      (List.mem_range.mpr (by omega)) (by omega)
      (bases.get ⟨i, hi'⟩) hmi (bases.get ⟨j, hj⟩) hmj heq₃
  · exact hgood ((bases.take i).count (bases.get ⟨i, hi'⟩) + 1)
      (List.mem_range.mpr (by omega)) (by omega)
      (bases.get ⟨j, hj⟩) hmj (bases.get ⟨i, hi'⟩) hmi heq₃.symm
  · obtain ⟨hb, hk⟩ := encName_inj _ _ _ _ heq₃
    rw [hb] at hlt hk
    omega

theorem exportGo_zipNames (pages : List (List String)) (pre : String)
    (sp lpp : Nat) :
    ∀ (ranges : List (Nat × Nat × Option String)) (idx : Nat)
      (used : List (String × Nat)),
      (exportGo pages pre sp lpp ranges idx used).1.map ZipEntry.name =
        assignNames used (acceptedBasesGo pages pre sp lpp ranges idx) := by
  intro ranges
  induction ranges with
  | nil => intro idx used; rfl
  | cons r rest ih =>
    intro idx used
    obtain ⟨start, stop, lab⟩ := r
    cases hv : find_laa_descarga_in_section pages start stop sp lpp with
    | some v =>
      by_cases hneg : is_negative_number_string v
      · simp only [exportGo, acceptedBasesGo, hv, hneg, if_true]
        exact ih (idx + 1) used
      · simp [exportGo, acceptedBasesGo, hv, hneg, assignNames, ih]
    | none =>
      simp [exportGo, acceptedBasesGo, hv, assignNames, ih]

/-- Witness for C3 (amended) at `s = "abc"`, `maxLen = 100`. -/
theorem claim_c3_amended_sanitize_idempotent_witness :
    4 ≤ 100 ∧
    noTrailSpaceB (sanitize_filename "abc" 100).data = true ∧
    sanitize_filename (sanitize_filename "abc" 100) 100 = sanitize_filename "abc" 100 :=
  ⟨by decide, by decide,
    claim_c3_amended_sanitize_idempotent "abc" 100 (by decide) (by decide)⟩

/-- **C2** is falsified as stated: file names are not always pairwise
distinct within a batch.  `used_names` records only base names, never the
suffixed names it hands out, so a section whose own base name collides
with a previously issued suffixed name produces a duplicate.  With
detected names `A_(2)`, `A`, `A` the three accepted sections are named
`A_(2).pdf`, `A.pdf` and again `A_(2).pdf`. -/
theorem claim_c2_counterexample :
    ((export_zip_and_excel
        [["NOMBRE DEL PROFESOR(A): A_(2)"],
         ["NOMBRE DEL PROFESOR(A): A"],
         ["NOMBRE DEL PROFESOR(A): A"]]
        [(0, 1, none), (1, 2, none), (2, 3, none)] "" 2 60).1.map ZipEntry.name
      = ["A_(2).pdf", "A.pdf", "A_(2).pdf"]) ∧
    ¬ ((export_zip_and_excel
        [["NOMBRE DEL PROFESOR(A): A_(2)"],
         ["NOMBRE DEL PROFESOR(A): A"],
         ["NOMBRE DEL PROFESOR(A): A"]]
        [(0, 1, none), (1, 2, none), (2, 3, none)] "" 2 60).1.map
        ZipEntry.name).Nodup := by
  constructor
  · decide
  · decide

/-- **C2** (amended).  The archive file names follow the per-base-name
occurrence-counter scheme in first-seen order: writing `bases` for the
sanitized base names of the accepted sections and `names` for the emitted
file names, the i-th file name is `<base>.pdf` on the first occurrence of
its base and `<base>_(k).pdf` on the k-th occurrence (k ≥ 2), with
counters scoped per base name and starting afresh from the empty
`used_names` table each run.  Pairwise distinctness holds provided no
accepted base name itself ends in a parenthesized counter `_(k)`
(2 ≤ k ≤ batch size) of another accepted base name. -/
theorem claim_c2_collision_suffix_naming
    (pages : List (List String)) (ranges : List (Nat × Nat × Option String))
    (pre : String) (sp lpp : Nat) (bases names : List String)
    (hb : bases = acceptedBases pages ranges pre sp lpp)
    (hn : names = (export_zip_and_excel pages ranges pre sp lpp).1.map ZipEntry.name)
    (hgood : ∀ k ∈ List.range (bases.length + 1), 2 ≤ k →
      ∀ b ∈ bases, ∀ b₂ ∈ bases, b ≠ encName b₂ k) :
    names.length = bases.length ∧
    (∀ i, ∀ hi : i < bases.length,
      names.get? i =
        some ((if (bases.take i).count (bases.get ⟨i, hi⟩) = 0
               then bases.get ⟨i, hi⟩
               else encName (bases.get ⟨i, hi⟩)
                 ((bases.take i).count (bases.get ⟨i, hi⟩) + 1)) ++ ".pdf")) ∧
    names.Nodup := by
  subst hb hn
  have hnames : (export_zip_and_excel pages ranges pre sp lpp).1.map ZipEntry.name
      = assignNames [] (acceptedBases pages ranges pre sp lpp) :=
    exportGo_zipNames pages pre sp lpp ranges 1 []
  rw [hnames]
  refine ⟨assignNames_length _ _, ?_, assignNames_nodup _ hgood⟩
  intro i hi
  exact assignNames_get_nil _ i hi

/-- Witness for C2 (amended): the Ana Ruiz run of the spec.  Two sections
both detecting `Ana Ruiz` yield `Ana Ruiz.pdf` then `Ana Ruiz_(2).pdf`. -/
theorem claim_c2_collision_suffix_naming_witness :
    (["Ana Ruiz", "Ana Ruiz"]
      = acceptedBases
          [["NOMBRE DEL PROFESOR(A): Ana Ruiz"], ["NOMBRE DEL PROFESOR(A): Ana Ruiz"]]
          [(0, 1, none), (1, 2, none)] "" 2 60) ∧
    (["Ana Ruiz.pdf", "Ana Ruiz_(2).pdf"]
      = (export_zip_and_excel
          [["NOMBRE DEL PROFESOR(A): Ana Ruiz"], ["NOMBRE DEL PROFESOR(A): Ana Ruiz"]]
          [(0, 1, none), (1, 2, none)] "" 2 60).1.map ZipEntry.name) ∧
    ((["Ana Ruiz.pdf", "Ana Ruiz_(2).pdf"] : List String).length
        = (["Ana Ruiz", "Ana Ruiz"] : List String).length ∧
     (∀ i, ∀ hi : i < (["Ana Ruiz", "Ana Ruiz"] : List String).length,
       (["Ana Ruiz.pdf", "Ana Ruiz_(2).pdf"] : List String).get? i =
         some ((if ((["Ana Ruiz", "Ana Ruiz"] : List String).take i).count
                    ((["Ana Ruiz", "Ana Ruiz"] : List String).get ⟨i, hi⟩) = 0
                then (["Ana Ruiz", "Ana Ruiz"] : List String).get ⟨i, hi⟩
                else encName ((["Ana Ruiz", "Ana Ruiz"] : List String).get ⟨i, hi⟩)
                  (((["Ana Ruiz", "Ana Ruiz"] : List String).take i).count
                    ((["Ana Ruiz", "Ana Ruiz"] : List String).get ⟨i, hi⟩) + 1)) ++ ".pdf")) ∧
     (["Ana Ruiz.pdf", "Ana Ruiz_(2).pdf"] : List String).Nodup) :=
  ⟨by decide, by decide,
    claim_c2_collision_suffix_naming
      [["NOMBRE DEL PROFESOR(A): Ana Ruiz"], ["NOMBRE DEL PROFESOR(A): Ana Ruiz"]]
      [(0, 1, none), (1, 2, none)] "" 2 60
      ["Ana Ruiz", "Ana Ruiz"] ["Ana Ruiz.pdf", "Ana Ruiz_(2).pdf"]
      (by decide) (by decide) (by decide)⟩

end App
